import Mathlib

/-!
Verification of the spatial-index and flow-field core of a unit-simulation
engine (files `src/util.rs`, `src/physics/spatial_structures.rs`, `src/unit.rs`).

Modelling conventions (shallow embedding):
* `f32` values are modelled by exact rationals `ℚ`.  The sentinel `f32::MAX`
  is modelled by the rational constant `fmax` (the exact value of `f32::MAX`).
* Rust's `as i32` cast of a float truncates toward zero; it is modelled by
  `ratCastI32`.
* `Vector2` is a pair of rationals.  `Vector2::normalized` divides by a
  Euclidean norm (an irrational operation); wherever the source normalizes,
  the model takes the normalization function `nrm : Vec → Vec` as an explicit
  parameter.
* `HashMap` fields are modelled by association lists (first match wins,
  insertion appends), `HashSet` membership by list membership, entity ids by
  `Nat`.
* The source stores, as a neighbor's distance, `sqrt(distance_squared)`.
  Since `Real.sqrt` is noncomputable and the square root is a strictly
  monotone recoding, the model stores the (exact, rational) squared surface
  distance; a comparison `sqrt d ≤ r` of the source appears in the model as
  `0 ≤ r ∧ d ≤ r * r`, which is equivalent for the nonnegative stored values.
-/

/-- `SpatialHashCell(x, y)` of `spatial_structures.rs`: a pair of integers. -/
abbrev Cell : Type := Int × Int

/-- `Vector2`, modelled over `ℚ`. -/
abbrev Vec : Type := ℚ × ℚ

/-- Componentwise vector addition (`Vector2 + Vector2`). -/
def vadd (a b : Vec) : Vec := (a.1 + b.1, a.2 + b.2)

/-- Scalar multiplication (`Vector2 * f32`). -/
def vsmul (k : ℚ) (v : Vec) : Vec := (k * v.1, k * v.2)

/-- The direction vector `(n.0 - c.0, n.1 - c.1)` cast from integers. -/
def intVec (n c : Cell) : Vec := (((n.1 - c.1 : Int) : ℚ), ((n.2 - c.2 : Int) : ℚ))

/-- Rust's `f32 as i32` cast: truncation toward zero (saturation is not
modelled; all inputs of interest are far from the `i32` range ends). -/
def ratCastI32 (q : ℚ) : Int := if 0 ≤ q then q.floor else -((-q).floor)

/-- `get_point_spatial_hash` of `util.rs`:
`SpatialHashCell((point.x / cell_size) as i32, (point.y / cell_size) as i32)`. -/
def get_point_spatial_hash (px py cell_size : ℚ) : Cell :=
  (ratCastI32 (px / cell_size), ratCastI32 (py / cell_size))

/-- The list `lo..=hi` of integers (a Rust inclusive range; empty when
`hi < lo`). -/
def intRangeIncl (lo hi : Int) : List Int :=
  (List.range (hi + 1 - lo).toNat).map (fun k : Nat => lo + (k : Int))

/-- `get_all_spatial_hashes_from_circle` of `spatial_structures.rs`: all cells
of the axis-aligned bounding box of the circle, from the hash of
`position - ONE * radius` to the hash of `position + ONE * radius`. -/
def get_all_spatial_hashes_from_circle (px py radius cell_size : ℚ) : List Cell :=
  let minh := get_point_spatial_hash (px - radius) (py - radius) cell_size
  let maxh := get_point_spatial_hash (px + radius) (py + radius) cell_size
  (intRangeIncl minh.1 maxh.1).flatMap (fun x =>
    (intRangeIncl minh.2 maxh.2).map (fun y => (x, y)))

/-- `true_distance_squared` of `util.rs`:
`pos1.distance_squared_to(pos2) - (rad1 + rad2)^2`. -/
def true_distance_squared (x1 y1 x2 y2 r1 r2 : ℚ) : ℚ :=
  ((x1 - x2) ^ 2 + (y1 - y2) ^ 2) - (r1 + r2) * (r1 + r2)

/-- An agent as seen by `build_spatial_hash_table`: entity id, position and
bounding radius. -/
structure HAgent where
  id : Nat
  px : ℚ
  py : ℚ
  r : ℚ
deriving DecidableEq

/-- The bucket table `HashMap<SpatialHashCell, Vec<Entity>>` as an association
list. -/
abbrev HashTable : Type := List (Cell × List Nat)

/-- Append an entity to the bucket of `c` (`collection.push(entity)`), or
insert a fresh singleton bucket (`table.insert(spatial_hash, vec![entity])`). -/
def tableInsert (c : Cell) (e : Nat) : HashTable → HashTable
  | [] => [(c, [e])]
  | (c', l) :: rest =>
      if c' = c then (c', l ++ [e]) :: rest else (c', l) :: tableInsert c e rest

/-- Bucket lookup; a missing key reads as the empty bucket. -/
def bucketOf (t : HashTable) (c : Cell) : List Nat :=
  match t.find? (fun p => p.1 == c) with
  | some p => p.2
  | none => []

/-- Insert one agent into every cell its bounding square overlaps
(the body of the `for (entity, position, radius)` loop). -/
def insertAgentHashes (t : HashTable) (a : HAgent) : HashTable :=
  (get_all_spatial_hashes_from_circle a.px a.py a.r 36).foldl
    (fun acc c => tableInsert c a.id acc) t

/-- `build_spatial_hash_table` of `spatial_structures.rs` (cell size is the
hard-coded `36.`). -/
def build_spatial_hash_table (agents : List HAgent) : HashTable :=
  agents.foldl insertAgentHashes []

/-- An agent as seen by `build_spatial_neighbors_cache`: entity id, position,
bounding radius and, when the entity carries a `SpatialAwareness` component,
its awareness radius.  The outer query of the build iterates exactly the
agents with awareness; the inner query resolves any id to `(position, radius)`. -/
structure NAgent where
  id : Nat
  px : ℚ
  py : ℚ
  r : ℚ
  aware : Option ℚ
deriving DecidableEq

/-- Forget the awareness component (the view of `build_spatial_hash_table`). -/
def NAgent.toHAgent (a : NAgent) : HAgent := ⟨a.id, a.px, a.py, a.r⟩

/-- One cached entry: a neighbor's id together with the squared surface
distance (the source stores its square root; see the header). -/
abbrev NbrEntry : Type := Nat × ℚ

/-- One tier: `HashMap<Entity, Vec<(Entity, f32)>>` as an association list. -/
abbrev Tier : Type := List (Nat × List NbrEntry)

/-- `vec_of_maps`: one tier per configured radius. -/
abbrev Cache : Type := List Tier

/-- `cached_neighbors.push(entry)` under key `k`, or
`neighbor_map.insert(k, vec![entry])` when the key is absent. -/
def tierInsert (k : Nat) (e : NbrEntry) : Tier → Tier
  | [] => [(k, [e])]
  | (k', l) :: rest =>
      if k' = k then (k', l ++ [e]) :: rest else (k', l) :: tierInsert k e rest

/-- `neighbor_map.get(k)`: `none` when the key is absent from the map. -/
def tierGet (t : Tier) (k : Nat) : Option (List NbrEntry) :=
  match t.find? (fun p => p.1 == k) with
  | some p => some p.2
  | none => none

/-- The entry list of key `k`, the empty list when `k` is absent. -/
def tierEntries (t : Tier) (k : Nat) : List NbrEntry := (tierGet t k).getD []

/-- The inner `for i in 0..radii.0.len()` loop: in every tier `i` whose radius
satisfies `distance_squared <= rad * rad`, record `(bId, dsq)` under `aId` and
then `(aId, dsq)` under `bId`. -/
def addEdges (aId bId : Nat) (dsq : ℚ) : List ℚ → Cache → Cache
  | [], c => c
  | _ :: _, [] => []
  | rad :: rs, t :: ts =>
      (if dsq ≤ rad * rad then tierInsert bId (aId, dsq) (tierInsert aId (bId, dsq) t)
       else t) :: addEdges aId bId dsq rs ts

/-- `inner_query.get(entity_test)`: resolve an id against the agent list. -/
def lookupAgent (agents : List NAgent) (e : Nat) : Option NAgent :=
  agents.find? (fun a => a.id == e)

/-- `true_distance_squared(..).max(0.0)` for a pair of agents. -/
def pairDsq (a b : NAgent) : ℚ :=
  max (true_distance_squared a.px a.py b.px b.py a.r b.r) 0

/-- The `for entity_test in entity_group` loop over one bucket: skip ids
already in `checked_neighbors`, insert the id, resolve it, and add the edges
for every qualifying tier.  Returns the grown checked set and cache. -/
def scanIds (agents : List NAgent) (radii : List ℚ) (a : NAgent) :
    List Nat → List Nat → Cache → List Nat × Cache
  | [], checked, cache => (checked, cache)
  | e :: es, checked, cache =>
      if e ∈ checked then scanIds agents radii a es checked cache
      else
        match lookupAgent agents e with
        | none => scanIds agents radii a es (e :: checked) cache
        | some b =>
            scanIds agents radii a es (e :: checked)
              (addEdges a.id b.id (pairDsq a b) radii cache)

/-- The `for spatial_hash in get_all_spatial_hashes_from_circle(..)` loop:
scan the bucket of every cell, threading the checked set and the cache. -/
def scanCells (agents : List NAgent) (radii : List ℚ) (a : NAgent) (table : HashTable) :
    List Cell → List Nat → Cache → List Nat × Cache
  | [], checked, cache => (checked, cache)
  | c :: cs, checked, cache =>
      let p := scanIds agents radii a (bucketOf table c) checked cache
      scanCells agents radii a table cs p.1 p.2

/-- The outer `for (entity, position, radius, awareness)` loop: agents without
awareness are not iterated (and never enter `checked_ents`); each iterated
agent is inserted into `checked_ents`, whose clone seeds the per-agent
`checked_neighbors` set. -/
def buildLoop (agents : List NAgent) (radii : List ℚ) (table : HashTable) :
    List NAgent → List Nat → Cache → Cache
  | [], _, cache => cache
  | a :: rest, checkedEnts, cache =>
      match a.aware with
      | none => buildLoop agents radii table rest checkedEnts cache
      | some aw =>
          let checked := a.id :: checkedEnts
          let p := scanCells agents radii a table
            (get_all_spatial_hashes_from_circle a.px a.py aw 36) checked cache
          buildLoop agents radii table rest checked p.2

/-- `SpatialNeighborsCache::new(radii)`: one empty map per radius. -/
def emptyCache (radii : List ℚ) : Cache := radii.map (fun _ => [])

/-- `build_spatial_neighbors_cache` of `spatial_structures.rs` (the cell size
of the consumed hash table is the hard-coded `36.`; the `clock % 6` gate
selects whether the build runs at all and is not part of the built value). -/
def build_spatial_neighbors_cache (agents : List NAgent) (radii : List ℚ) : Cache :=
  buildLoop agents radii (build_spatial_hash_table (agents.map NAgent.toHAgent))
    agents [] (emptyCache radii)

/-- `SpatialNeighborsCache::get_neighbors` of `spatial_structures.rs`: pick the
first tier whose radius is at least `distance` (the last tier when none is),
return `none` when the entity is absent from that tier's map, and otherwise
the cached ids whose recorded distance is at most `distance`.  The source
filter `dist <= distance` compares the stored square root; on the stored
square `e.2` it is rendered exactly as `0 ≤ distance ∧ e.2 ≤ distance²`. -/
def get_neighbors (radii : List ℚ) (cache : Cache) (ent : Nat) (distance : ℚ) :
    Option (List Nat) :=
  let index := match radii.findIdx? (fun r => decide (distance ≤ r)) with
    | some i => i
    | none => radii.length - 1
  match cache.get? index with
  | none => none
  | some tier =>
      match tierGet tier ent with
      | none => none
      | some l =>
          some (l.filterMap (fun e =>
            if 0 ≤ distance ∧ e.2 ≤ distance * distance then some e.1 else none))

/-- The tier-`i` entry list of key `k` in a cache (empty when the tier or
the key is absent). -/
def cacheEntries (cache : Cache) (i k : Nat) : List NbrEntry :=
  tierEntries ((cache.get? i).getD []) k

/-- Count of entries for neighbor `b` (any recorded distance) in the tier-`i`
list of `a`. -/
def pairCount (cache : Cache) (i a b : Nat) : Nat :=
  (cacheEntries cache i a).countP (fun e => decide (e.1 = b))

/-- Count of exact entries `(b, d)` in the tier-`i` list of `a`. -/
def entryCount (cache : Cache) (i a b : Nat) (d : ℚ) : Nat :=
  (cacheEntries cache i a).countP (fun e => decide (e = (b, d)))

/-- Every recorded edge is mirrored exactly: the count of `(b, d)` under `a`
equals the count of `(a, d)` under `b`, in every tier. -/
def SymCache (cache : Cache) : Prop :=
  ∀ i a b d, entryCount cache i a b d = entryCount cache i b a d

/-- No agent ever appears in its own entry lists. -/
def NoSelfEdges (cache : Cache) : Prop := ∀ i a, pairCount cache i a a = 0

/-- Each unordered pair contributes at most one entry per endpoint per tier. -/
def PairAtMostOne (cache : Cache) : Prop := ∀ i a b, pairCount cache i a b ≤ 1

/-- Every entry of tier `i` stores a nonnegative squared distance within the
square of the tier's radius. -/
def BoundOK (radii : List ℚ) (cache : Cache) : Prop :=
  ∀ i r k e, radii.get? i = some r → e ∈ cacheEntries cache i k →
    0 ≤ e.2 ∧ e.2 ≤ r * r

/-- Every recorded pair has at least one endpoint among the already processed
outer agents. -/
def PairSupport (cache : Cache) (checked : List Nat) : Prop :=
  ∀ i a b, 1 ≤ pairCount cache i a b → a ∈ checked ∨ b ∈ checked

/-- `TerrainCell` of `spatial_structures.rs`. -/
structure TerrainCell where
  pathable_mask : Nat
  movement_cost : ℚ
deriving DecidableEq

/-- `TerrainMap` of `spatial_structures.rs`; the `map` hash map appears as a
partial function from cells. -/
structure TerrainMap where
  cellsAt : Cell → Option TerrainCell
  max_bounds : Cell
  default_cell : TerrainCell
  out_of_bounds_cell : TerrainCell
  cell_size : ℚ

/-- `TerrainMap::get_cell`: out-of-bounds coordinates resolve to
`out_of_bounds_cell`, in-bounds coordinates absent from the map to
`default_cell`. -/
def TerrainMap.get_cell (t : TerrainMap) (c : Cell) : TerrainCell :=
  if c.1 < 0 ∨ c.2 < 0 ∨ t.max_bounds.1 ≤ c.1 ∨ t.max_bounds.2 ≤ c.2 then
    t.out_of_bounds_cell
  else
    match t.cellsAt c with
    | some tc => tc
    | none => t.default_cell

/-- A cell is pathable when its mask is nonzero. -/
def pathable (t : TerrainMap) (c : Cell) : Prop := (t.get_cell c).pathable_mask ≠ 0

instance (t : TerrainMap) (c : Cell) : Decidable (pathable t c) := by
  unfold pathable; infer_instance

/-- `get_orthognal_neighbor_cells` of `util.rs`: the x-pass over
`cell.0 - 1 .. cell.0 + 2`, then the y-pass, each filtered by
`-1 ≤ · ≤ bounds`. -/
def get_orthognal_neighbor_cells (c bounds : Cell) : List Cell :=
  ([c.1 - 1, c.1, c.1 + 1].filterMap (fun x =>
    if -1 ≤ x ∧ x ≤ bounds.1 ∧ x ≠ c.1 then some ((x, c.2) : Cell) else none)) ++
  ([c.2 - 1, c.2, c.2 + 1].filterMap (fun y =>
    if -1 ≤ y ∧ y ≤ bounds.2 ∧ y ≠ c.2 then some ((c.1, y) : Cell) else none))

/-- `get_diagonal_neighbor_cells` of `util.rs`: the double loop skipping cells
sharing a coordinate with `c`, filtered by `-1 ≤ · ≤ bounds`. -/
def get_diagonal_neighbor_cells (c bounds : Cell) : List Cell :=
  [c.1 - 1, c.1, c.1 + 1].flatMap (fun x =>
    [c.2 - 1, c.2, c.2 + 1].filterMap (fun y =>
      if x = c.1 ∨ y = c.2 then none
      else if -1 ≤ x ∧ -1 ≤ y ∧ x ≤ bounds.1 ∧ y ≤ bounds.2 then some ((x, y) : Cell)
      else none))

/-- `get_convolution_neighbor_cells_increment` of `util.rs`: the ring of
Chebyshev radius `sz` around `c`, pushed pairwise and filtered by the bounds
conditions of the source. -/
def get_convolution_neighbor_cells_increment (c : Cell) (sz : Int) (bounds : Cell) :
    List Cell :=
  ((intRangeIncl (c.1 - sz) (c.1 + sz)).flatMap (fun x =>
    if 0 ≤ x ∧ 0 ≤ c.2 - sz ∧ x ≤ bounds.1 ∧ c.2 + sz ≤ bounds.2 then
      [((x, c.2 - sz) : Cell), (x, c.2 + sz)]
    else [])) ++
  ((intRangeIncl (c.2 - sz) (c.2 + sz)).flatMap (fun y =>
    if 0 ≤ c.1 - sz ∧ 0 ≤ y ∧ c.1 + sz ≤ bounds.1 ∧ y ≤ bounds.2 then
      [((c.1 - sz, y) : Cell), (c.1 + sz, y)]
    else []))

/-- The exact value of `f32::MAX`, the sentinel of the integration field
(written as an integer cast, which reduces structurally). -/
def fmax : ℚ := ((340282346638528859811704183484516925440 : Int) : ℚ)

/-- The per-team slice of `integration_field`, as an association list; the
list of keys is observable (the gradient stage iterates it). -/
abbrev IField : Type := List (Cell × ℚ)

/-- `set_spatial_team_value`: replace the value of an existing key, else
insert the key. -/
def setVal : IField → Cell → ℚ → IField
  | [], c, v => [(c, v)]
  | (c', v') :: rest, c, v =>
      if c' = c then (c, v) :: rest else (c', v') :: setVal rest c v

/-- `get_spatial_team_value(field, cell, team, f32::MAX)`: the recorded value,
`fmax` when the cell has no entry. -/
def readVal : IField → Cell → ℚ
  | [], _ => fmax
  | (c', v) :: rest, c => if c' = c then v else readVal rest c

/-- The keys of the integration field. -/
def keysOf (f : IField) : List Cell := f.map (fun p => p.1)

/-- The common body of the two neighbor loops of the propagation stage: an
impassable neighbor is written to `MAX`; a neighbor whose x lies in `obsX` or
whose y lies in `obsY` is skipped; the rest are relaxed against
`curr + movement_cost` and enqueued on improvement.  The orthogonal loop is
this pass with empty skip lists (its skip test is then vacuous; the
`orthognal_obstacle_x/y` pushes it performs are computed separately as
`cornerObstaclesX`/`cornerObstaclesY`, which the loop itself never reads). -/
def relaxPass (t : TerrainMap) (curr : ℚ) (obsX obsY : List Int) :
    List Cell → IField → List Cell → IField × List Cell
  | [], f, q => (f, q)
  | n :: ns, f, q =>
      let tc := t.get_cell n
      if tc.pathable_mask = 0 then relaxPass t curr obsX obsY ns (setVal f n fmax) q
      else if n.1 ∈ obsX ∨ n.2 ∈ obsY then relaxPass t curr obsX obsY ns f q
      else
        let pot := curr + tc.movement_cost
        if pot < readVal f n then
          relaxPass t curr obsX obsY ns (setVal f n pot) (q ++ [n])
        else relaxPass t curr obsX obsY ns f q

/-- The x-coordinates `orthognal_obstacle_x` accumulated by the orthogonal
loop of the propagation stage: first coordinates of the impassable orthogonal
neighbors. -/
def cornerObstaclesX (t : TerrainMap) (c : Cell) : List Int :=
  (get_orthognal_neighbor_cells c t.max_bounds).filterMap (fun n =>
    if (t.get_cell n).pathable_mask = 0 then some n.1 else none)

/-- The y-coordinates `orthognal_obstacle_y` accumulated by the orthogonal
loop of the propagation stage. -/
def cornerObstaclesY (t : TerrainMap) (c : Cell) : List Int :=
  (get_orthognal_neighbor_cells c t.max_bounds).filterMap (fun n =>
    if (t.get_cell n).pathable_mask = 0 then some n.2 else none)

/-- One iteration of the `while !open_queue.is_empty()` loop, for the already
dequeued `node` and the remaining queue `q`: read `curr_node_val`, run the
orthogonal pass (no skip lists), then the diagonal pass skipping against the
accumulated corner obstacles. -/
def processNode (t : TerrainMap) (f : IField) (node : Cell) (q : List Cell) :
    IField × List Cell :=
  let curr := readVal f node
  let p := relaxPass t curr [] [] (get_orthognal_neighbor_cells node t.max_bounds) f q
  relaxPass t curr (cornerObstaclesX t node) (cornerObstaclesY t node)
    (get_diagonal_neighbor_cells node t.max_bounds) p.1 p.2

/-- The propagation loop, with explicit fuel; the queue is FIFO
(`pop_front` at the head, `push_back` appends). -/
def propagate (t : TerrainMap) : Nat → IField → List Cell → IField × List Cell
  | 0, f, q => (f, q)
  | _ + 1, f, [] => (f, [])
  | fuel + 1, f, node :: q =>
      let p := processNode t f node q
      propagate t fuel p.1 p.2

/-- `TeamValue` of `unit.rs`. -/
inductive TeamValue where
  | NeutralPassive : TeamValue
  | NeutralHostile : TeamValue
  | Team : Nat → TeamValue
deriving DecidableEq

/-- An agent as seen by `build_flow_fields`: alignment and position.  `f32`
NaN components of a position are modelled by the `posNaN` flag. -/
structure FlowAgent where
  team : TeamValue
  px : ℚ
  py : ℚ
  posNaN : Bool
deriving DecidableEq

/-- The goal cells of faction `team`: occupied cells of every agent of any
other alignment, skipping agents whose position has a NaN component.  This is
the union, over the other keys of `alignment_to_cells`, of the recorded cell
sets (set semantics only affects multiplicity, not membership). -/
def seedCells (team : TeamValue) (agents : List FlowAgent) (cellSize : ℚ) : List Cell :=
  agents.filterMap (fun a =>
    if a.team = team then none
    else if a.posNaN then none
    else some (get_point_spatial_hash a.px a.py cellSize))

/-- Zero out the goal cells: every seed is written with integration value 0. -/
def seedField (seeds : List Cell) : IField := seeds.foldl (fun f c => setVal f c 0) []

/-- The whole integration stage for one faction: seed, then propagate until
the queue drains (or the fuel runs out). -/
def runPropagation (t : TerrainMap) (fuel : Nat) (seeds : List Cell) :
    IField × List Cell :=
  propagate t fuel (seedField seeds) seeds

/-- No further relaxation is possible at cell `c`: every pathable orthogonal
neighbor, and every pathable diagonal neighbor admissible under the
corner-cutting rule of `c`, is within `movement_cost` of `c`'s value. -/
def relaxedAt (t : TerrainMap) (f : IField) (c : Cell) : Prop :=
  (∀ n ∈ get_orthognal_neighbor_cells c t.max_bounds, pathable t n →
    readVal f n ≤ readVal f c + (t.get_cell n).movement_cost) ∧
  (∀ n ∈ get_diagonal_neighbor_cells c t.max_bounds, pathable t n →
    n.1 ∉ cornerObstaclesX t c → n.2 ∉ cornerObstaclesY t c →
    readVal f n ≤ readVal f c + (t.get_cell n).movement_cost)

/-- The loop invariant of the propagation stage: every cell holding a
non-sentinel value is still queued or already locally relaxed. -/
def PropInv (t : TerrainMap) (f : IField) (q : List Cell) : Prop :=
  ∀ c, readVal f c ≠ fmax → c ∈ q ∨ relaxedAt t f c

/-- The mutable state of one gradient-extraction cell body: the obstacle
coordinate lists, the minimum-integration neighbor found so far with its
value, and the accumulated weighted flow. -/
structure FlowScanSt where
  obsX : List Int
  obsY : List Int
  minN : Cell
  minV : ℚ
  flow : Vec
deriving DecidableEq

/-- The initial scan state of one cell:
`orthognal_obstacle_x/y` empty, `min_node = SpatialHashCell(0, 0)`,
`min_integration_val = f32::MAX`, `flow = Vector2::ZERO`. -/
def flowScanInit : FlowScanSt := ⟨[], [], (0, 0), fmax, (0, 0)⟩

/-- The body shared by both distance-1 scans for a pathable neighbor `n`:
update the running minimum with `integration_val.max(0.01)` and add
`nrm(direction) * (1000 / integration_val)` to the flow. -/
def flowAccum (f : IField) (nrm : Vec → Vec) (c n : Cell) (st : FlowScanSt) :
    FlowScanSt :=
  let iv := max (readVal f n) (1 / 100)
  let st1 := if iv < st.minV then { st with minN := n, minV := iv } else st
  { st1 with flow := vadd st1.flow (vsmul (1000 / iv) (nrm (intVec n c))) }

/-- The orthogonal loop of the gradient stage (`for neighbor in
get_orthognal_neighbor_cells(*cell, ..)`): impassable neighbors push their
coordinates onto the obstacle lists; pathable ones run `flowAccum`. -/
def orthoFlowScan (t : TerrainMap) (f : IField) (nrm : Vec → Vec) (c : Cell) :
    List Cell → FlowScanSt → FlowScanSt
  | [], st => st
  | n :: ns, st =>
      if (t.get_cell n).pathable_mask = 0 then
        orthoFlowScan t f nrm c ns
          { st with obsX := st.obsX ++ [n.1], obsY := st.obsY ++ [n.2] }
      else orthoFlowScan t f nrm c ns (flowAccum f nrm c n st)

/-- The diagonal loop of the gradient stage: first the corner-cutting skip
against the current obstacle lists, then the impassable check, which pushes
the `-1` markers; pathable survivors run `flowAccum` as in the orthogonal
loop. -/
def diagFlowScan (t : TerrainMap) (f : IField) (nrm : Vec → Vec) (c : Cell) :
    List Cell → FlowScanSt → FlowScanSt
  | [], st => st
  | n :: ns, st =>
      if n.1 ∈ st.obsX ∨ n.2 ∈ st.obsY then diagFlowScan t f nrm c ns st
      else if (t.get_cell n).pathable_mask = 0 then
        diagFlowScan t f nrm c ns
          { st with obsX := st.obsX ++ [-1], obsY := st.obsY ++ [-1] }
      else diagFlowScan t f nrm c ns (flowAccum f nrm c n st)

/-- Both distance-1 scans of the gradient stage, in source order. -/
def flowScanAll (t : TerrainMap) (f : IField) (nrm : Vec → Vec) (c : Cell) : FlowScanSt :=
  diagFlowScan t f nrm c (get_diagonal_neighbor_cells c t.max_bounds)
    (orthoFlowScan t f nrm c (get_orthognal_neighbor_cells c t.max_bounds) flowScanInit)

/-- One ring of the convolution loop: accumulate `temp_flow` over the ring
cells, recording whether an impassable cell was encountered. -/
def convRingScan (t : TerrainMap) (f : IField) (nrm : Vec → Vec) (c : Cell) :
    List Cell → Vec × Bool → Vec × Bool
  | [], acc => acc
  | n :: ns, acc =>
      let iv := max (readVal f n) (1 / 100)
      if (t.get_cell n).pathable_mask = 0 then convRingScan t f nrm c ns (acc.1, true)
      else
        convRingScan t f nrm c ns
          (vadd acc.1 (vsmul (1000 / iv) (nrm (intVec n c))), acc.2)

/-- The `loop` of the gradient stage, with explicit fuel: scan the ring at
`len`; on an obstacle, exit with the flow accumulated so far; otherwise add
the ring's flow and continue until `len + 1 > maxLen`. -/
def convLoop (t : TerrainMap) (f : IField) (nrm : Vec → Vec) (c : Cell)
    (maxLen : Int) : Nat → Int → Vec → Vec
  | 0, _, flow => flow
  | fuel + 1, len, flow =>
      let p := convRingScan t f nrm c
        (get_convolution_neighbor_cells_increment c len t.max_bounds) ((0, 0), false)
      if p.2 then flow
      else
        let flow1 := vadd flow p.1
        if maxLen < len + 1 then flow1 else convLoop t f nrm c maxLen fuel (len + 1) flow1

/-- The whole per-cell body of the gradient stage (`max_convolution_length`
is the source constant 1, so the convolution loop runs its body exactly once,
at ring 2): `none` when `integration_val_of_cell <= 0.01` (the `continue`),
otherwise the stored vector.  When `orthognal_obstacle_x` ended empty the
convolution branch runs; otherwise the accumulated flow is replaced by the
normalized direction to the minimum neighbor.  The final store normalizes
again. -/
def flowCellVec (t : TerrainMap) (f : IField) (nrm : Vec → Vec) (c : Cell) :
    Option Vec :=
  if readVal f c ≤ 1 / 100 then none
  else
    let st := flowScanAll t f nrm c
    if st.obsX = [] then some (nrm (convLoop t f nrm c 1 2 2 st.flow))
    else some (nrm (nrm (intVec st.minN c)))

/-- The per-team flow field, an association list over cells. -/
abbrev FField : Type := List (Cell × Vec)

/-- `set_spatial_team_value` on the flow field. -/
def setFlowVal : FField → Cell → Vec → FField
  | [], c, v => [(c, v)]
  | (c', v') :: rest, c, v =>
      if c' = c then (c, v) :: rest else (c', v') :: setFlowVal rest c v

/-- The `for cell in integration_field.keys()` loop of the gradient stage for
one faction: store the computed vector of every key cell that was not skipped. -/
def buildFlowForTeam (t : TerrainMap) (f : IField) (nrm : Vec → Vec)
    (keys : List Cell) : FField :=
  keys.foldl (fun ff c =>
    match flowCellVec t f nrm c with
    | none => ff
    | some v => setFlowVal ff c v) []

/-- The keyed entry of a cell in the flow field, when present. -/
def flowEntry (ff : FField) (c : Cell) : Option Vec :=
  match ff.find? (fun p => p.1 == c) with
  | some p => some p.2
  | none => none

/-- A consumer's lookup `get_spatial_team_value(&flow_field.map, cell, team,
Vector2::ZERO)` (see `flow_towards_enemies_boid` in `boid.rs`): the zero
vector when the cell has no entry. -/
def flowLookup (ff : FField) (c : Cell) : Vec := (flowEntry ff c).getD (0, 0)

/-- Modelled from the claim's reading of the spec for comparison with
`flowCellVec`: identical gradient extraction, except that the convolution
branch is entered exactly when no ORTHOGONAL obstacle was found at distance 1
(the obstacle list as it stands after the orthogonal scan alone), diagonal
obstacles notwithstanding. -/
def flowCellVecSpecC6 (t : TerrainMap) (f : IField) (nrm : Vec → Vec) (c : Cell) :
    Option Vec :=
  if readVal f c ≤ 1 / 100 then none
  else
    let stOrtho := orthoFlowScan t f nrm c
      (get_orthognal_neighbor_cells c t.max_bounds) flowScanInit
    let st := diagFlowScan t f nrm c (get_diagonal_neighbor_cells c t.max_bounds) stOrtho
    if stOrtho.obsX = [] then some (nrm (convLoop t f nrm c 1 2 2 st.flow))
    else some (nrm (nrm (intVec st.minN c)))

/-- The declarative rendering of "some obstacle was found at distance 1" in
the gradient stage: an impassable orthogonal neighbor, or an impassable
diagonal neighbor that the corner-cutting rule (against the orthogonal
obstacle coordinates) does not skip. -/
def obstacleAtDistOne (t : TerrainMap) (c : Cell) : Prop :=
  (∃ n ∈ get_orthognal_neighbor_cells c t.max_bounds, (t.get_cell n).pathable_mask = 0) ∨
  (∃ n ∈ get_diagonal_neighbor_cells c t.max_bounds, (t.get_cell n).pathable_mask = 0 ∧
    n.1 ∉ cornerObstaclesX t c ∧ n.2 ∉ cornerObstaclesY t c)

/-- Whether tier `i` of the configured radii qualifies for a squared
distance `d` (`distance_squared <= rad * rad`), decidably. -/
instance decTierQualifies (rs : List ℚ) (i : Nat) (d : ℚ) :
    Decidable (∃ r, rs.get? i = some r ∧ d ≤ r * r) := by
  cases h : rs.get? i with
  | none =>
      exact isFalse (by
        rintro ⟨r, hr, -⟩
        cases hr)
  | some r =>
      refine decidable_of_iff (d ≤ r * r) ⟨fun hle => ⟨r, rfl, hle⟩, ?_⟩
      rintro ⟨r2, hr2, hle⟩
      injection hr2 with he
      rw [he]
      exact hle

/-- Test fixture: a `3 × 1` strip of default cells (pathable, movement cost
1), with impassable out-of-bounds surroundings — the first end-to-end
scenario of the specification. -/
def terrainStrip : TerrainMap :=
  { cellsAt := fun _ => none
    max_bounds := (3, 1)
    default_cell := ⟨1, 1⟩
    out_of_bounds_cell := ⟨0, 0⟩
    cell_size := 1 }

/-- Test fixture: the strip with its middle cell `(1, 0)` impassable — the
second end-to-end scenario of the specification. -/
def terrainStripBlocked : TerrainMap :=
  { cellsAt := fun c => if c = (1, 0) then some ⟨0, 1⟩ else none
    max_bounds := (3, 1)
    default_cell := ⟨1, 1⟩
    out_of_bounds_cell := ⟨0, 0⟩
    cell_size := 1 }

/-- Test fixture: a `3 × 3` block of default cells with only the corner
`(0, 0)` impassable. -/
def terrainCornerBlocked : TerrainMap :=
  { cellsAt := fun c => if c = (0, 0) then some ⟨0, 1⟩ else none
    max_bounds := (3, 3)
    default_cell := ⟨1, 1⟩
    out_of_bounds_cell := ⟨0, 0⟩
    cell_size := 1 }

/-- Test fixture: a `3 × 3` block of default cells with only `(1, 0)`
impassable. -/
def terrainEastBlocked : TerrainMap :=
  { cellsAt := fun c => if c = (1, 0) then some ⟨0, 1⟩ else none
    max_bounds := (3, 3)
    default_cell := ⟨1, 1⟩
    out_of_bounds_cell := ⟨0, 0⟩
    cell_size := 1 }

/-- Test fixture: a `3 × 3` block of default cells, all pathable. -/
def terrainOpen : TerrainMap :=
  { cellsAt := fun _ => none
    max_bounds := (3, 3)
    default_cell := ⟨1, 1⟩
    out_of_bounds_cell := ⟨0, 0⟩
    cell_size := 36 }

/-- Test fixture: a concrete integration field on `terrainCornerBlocked`. -/
def fieldCorner : IField :=
  [((1, 1), 1), ((0, 1), 2), ((1, 0), 2), ((2, 1), 3), ((1, 2), 3),
   ((0, 2), 2), ((2, 0), 2), ((2, 2), 2)]

/-- Test fixture: two awareness agents within surface distance `sqrt 5`. -/
def agentsPair : List NAgent := [⟨1, 0, 0, 1, some 5⟩, ⟨2, 3, 0, 1, some 5⟩]

example : ratCastI32 (-(1 : ℚ) / 2) = 0 := by with_unfolding_all decide
example : ratCastI32 ((3 : ℚ) / 2) = 1 := by with_unfolding_all decide
example : intRangeIncl (-1) 1 = [-1, 0, 1] := by decide
example :
    get_all_spatial_hashes_from_circle 0 0 1 36 = [(0, 0)] := by
  with_unfolding_all decide
example :
    bucketOf (build_spatial_hash_table [⟨1, 0, 0, 1⟩, ⟨2, 3, 0, 1⟩]) (0, 0) = [1, 2] := by
  with_unfolding_all decide

/-! ### Basic lemmas on field reads, seeds and the integer cast -/

theorem readVal_setVal (f : IField) (c : Cell) (v : ℚ) (x : Cell) :
    readVal (setVal f c v) x = if x = c then v else readVal f x := by
  induction f with
  | nil =>
      simp only [setVal, readVal]
      by_cases h : x = c
      · rw [if_pos h.symm, if_pos h]
      · rw [if_neg (fun hc => h hc.symm), if_neg h]
  | cons hd tl ih =>
      obtain ⟨c', v'⟩ := hd
      simp only [setVal]
      by_cases h1 : c' = c
      · rw [if_pos h1]
        subst h1
        simp only [readVal]
        by_cases h2 : x = c'
        · rw [if_pos h2.symm, if_pos h2]
        · rw [if_neg (fun hc => h2 hc.symm), if_neg h2, if_neg (fun hc => h2 hc.symm)]
      · rw [if_neg h1]
        simp only [readVal, ih]
        by_cases h2 : c' = x
        · have hxc : ¬x = c := fun hc => h1 (h2.trans hc)
          rw [if_pos h2, if_neg hxc, if_pos h2]
        · rw [if_neg h2]
          by_cases h3 : x = c
          · rw [if_pos h3, if_pos h3]
          · rw [if_neg h3, if_neg h3, if_neg h2]

theorem readVal_seedField_aux (seeds : List Cell) (f0 : IField) (c : Cell) :
    readVal (seeds.foldl (fun f s => setVal f s 0) f0) c
      = if c ∈ seeds then 0 else readVal f0 c := by
  induction seeds generalizing f0 with
  | nil => simp
  | cons s rest ih =>
      simp only [List.foldl_cons, ih, readVal_setVal, List.mem_cons]
      by_cases hc : c ∈ rest
      · simp [hc]
      · by_cases hcs : c = s <;> simp [hc, hcs]

theorem readVal_seedField (seeds : List Cell) (c : Cell) :
    readVal (seedField seeds) c = if c ∈ seeds then 0 else fmax := by
  unfold seedField
  rw [readVal_seedField_aux]
  rfl

theorem fmax_pos : (0 : ℚ) < fmax := by norm_num [fmax]

theorem mem_intRangeIncl (lo hi x : Int) : x ∈ intRangeIncl lo hi ↔ lo ≤ x ∧ x ≤ hi := by
  unfold intRangeIncl
  rw [List.mem_map]
  constructor
  · rintro ⟨k, hk, rfl⟩
    rw [List.mem_range] at hk
    constructor <;> omega
  · rintro ⟨h1, h2⟩
    refine ⟨(x - lo).toNat, ?_, ?_⟩
    · rw [List.mem_range]
      omega
    · omega

theorem ratFloor_eq (q : ℚ) : q.floor = ⌊q⌋ := by
  rw [Rat.floor_def' q, Rat.floor_def]

theorem ratCastI32_eq (q : ℚ) : ratCastI32 q = if 0 ≤ q then ⌊q⌋ else -⌊-q⌋ := by
  unfold ratCastI32
  rw [ratFloor_eq, ratFloor_eq]

theorem ratCastI32_mono {p q : ℚ} (h : p ≤ q) : ratCastI32 p ≤ ratCastI32 q := by
  rw [ratCastI32_eq, ratCastI32_eq]
  rcases le_or_lt 0 p with hp | hp
  · rw [if_pos hp, if_pos (hp.trans h)]
    exact Int.floor_le_floor h
  · rcases le_or_lt 0 q with hq | hq
    · rw [if_neg (not_le.2 hp), if_pos hq]
      have h1 : ⌊-p⌋ ≥ 0 := Int.floor_nonneg.2 (by linarith)
      have h2 : (0 : Int) ≤ ⌊q⌋ := Int.floor_nonneg.2 hq
      omega
    · rw [if_neg (not_le.2 hp), if_neg (not_le.2 hq)]
      have : ⌊-q⌋ ≤ ⌊-p⌋ := Int.floor_le_floor (by linarith)
      omega

/-! ### Claim C8: grid coordinates -/

/-- Claim C8, counterexample: the source truncates toward zero, not by
floor-division; the position `(-1/2, 0)` with cell size `1` maps to cell
`(0, 0)`, not to the floor-division cell `(-1, 0)`. -/
theorem C8_counterexample :
    get_point_spatial_hash (-(1 : ℚ) / 2) 0 1 = (0, 0) ∧
    (⌊(-(1 : ℚ) / 2) / 1⌋, ⌊(0 : ℚ) / 1⌋) = ((-1 : Int), (0 : Int)) ∧
    ((0, 0) : Cell) ≠ ((-1 : Int), (0 : Int)) := by
  refine ⟨by with_unfolding_all decide, ?_, by decide⟩
  have h1 : ⌊(-(1 : ℚ) / 2) / 1⌋ = ((-(1 : ℚ) / 2) / 1).floor := (ratFloor_eq _).symm
  have h2 : ⌊(0 : ℚ) / 1⌋ = ((0 : ℚ) / 1).floor := (ratFloor_eq _).symm
  rw [Prod.mk.injEq, h1, h2]
  constructor <;> with_unfolding_all decide

/-- Claim C8 (amended): each component of the grid coordinate is the quotient
by the cell size truncated toward zero; on non-negative components this
agrees with floor-division (the claimed `x = -0.5 ↦ -1` does not hold, see
the counterexample). -/
theorem C8_amended (px py cs : ℚ) (hcs : 0 < cs) (hx : 0 ≤ px) (hy : 0 ≤ py) :
    get_point_spatial_hash px py cs = (⌊px / cs⌋, ⌊py / cs⌋) := by
  unfold get_point_spatial_hash
  rw [ratCastI32_eq, ratCastI32_eq,
    if_pos (div_nonneg hx hcs.le), if_pos (div_nonneg hy hcs.le)]

/-- Witness for `C8_amended` at `px = 3/2`, `py = 0`, `cs = 1`. -/
theorem C8_amended_witness :
    (0 : ℚ) < 1 ∧ (0 : ℚ) ≤ 3 / 2 ∧ (0 : ℚ) ≤ 0 ∧
    get_point_spatial_hash ((3 : ℚ) / 2) 0 1 = (⌊(3 : ℚ) / 2 / 1⌋, ⌊(0 : ℚ) / 1⌋) :=
  ⟨by norm_num, by norm_num, le_refl 0,
    C8_amended ((3 : ℚ) / 2) 0 1 (by norm_num) (by norm_num) (le_refl 0)⟩

/-! ### Claim C9: goal seeding by faction -/

/-- Claim C9, counterexample: a cell occupied only by a neutral-passive agent
is seeded as a goal cell (integration value 0) of team 1's field, contrary to
the claim.  The team-1 agent sits in cell `(0, 0)`, the neutral-passive agent
in cell `(2, 2)`; after the seeding stage of `build_flow_fields` for team 1,
cell `(2, 2)` carries integration value 0, and it still does at the fixed
point of the propagation over a fully pathable `3 × 3` terrain. -/
theorem C9_counterexample :
    seedCells (TeamValue.Team 1)
        [⟨TeamValue.Team 1, 10, 10, false⟩, ⟨TeamValue.NeutralPassive, 100, 100, false⟩]
        36 = [(2, 2)] ∧
    readVal (seedField [(2, 2)]) (2, 2) = 0 ∧
    (runPropagation terrainOpen 60 [(2, 2)]).2 = [] ∧
    readVal (runPropagation terrainOpen 60 [(2, 2)]).1 (2, 2) = 0 := by
  refine ⟨?_, ?_, ?_, ?_⟩ <;> with_unfolding_all decide

/-- Claim C9 (amended): when `build_flow_fields` seeds the open set for a
faction `F`, the occupied cell of every agent of any other alignment —
neutral-passive and neutral-hostile alike, as well as the other numbered
teams — is used as a goal cell with integration value 0; only agents of `F`
itself (and agents with NaN positions) are excluded. -/
theorem C9_amended (team : TeamValue) (ags : List FlowAgent) (cs : ℚ) (a : FlowAgent)
    (hmem : a ∈ ags) (hteam : a.team ≠ team) (hnan : a.posNaN = false) :
    get_point_spatial_hash a.px a.py cs ∈ seedCells team ags cs ∧
    readVal (seedField (seedCells team ags cs)) (get_point_spatial_hash a.px a.py cs)
      = 0 := by
  have hm : get_point_spatial_hash a.px a.py cs ∈ seedCells team ags cs := by
    unfold seedCells
    refine List.mem_filterMap.2 ⟨a, hmem, ?_⟩
    simp [hteam, hnan]
  refine ⟨hm, ?_⟩
  rw [readVal_seedField, if_pos hm]

/-- Witness for `C9_amended`: a neutral-hostile agent seeds team 0's field. -/
theorem C9_amended_witness :
    (⟨TeamValue.NeutralHostile, 40, 0, false⟩ : FlowAgent) ∈
        [(⟨TeamValue.NeutralHostile, 40, 0, false⟩ : FlowAgent)] ∧
    TeamValue.NeutralHostile ≠ TeamValue.Team 0 ∧
    (⟨TeamValue.NeutralHostile, 40, 0, false⟩ : FlowAgent).posNaN = false ∧
    (get_point_spatial_hash 40 0 36 ∈
        seedCells (TeamValue.Team 0) [⟨TeamValue.NeutralHostile, 40, 0, false⟩] 36 ∧
      readVal (seedField (seedCells (TeamValue.Team 0)
          [⟨TeamValue.NeutralHostile, 40, 0, false⟩] 36))
        (get_point_spatial_hash 40 0 36) = 0) :=
  ⟨List.mem_singleton.2 rfl, by decide, rfl,
    C9_amended (TeamValue.Team 0) [⟨TeamValue.NeutralHostile, 40, 0, false⟩] 36
      ⟨TeamValue.NeutralHostile, 40, 0, false⟩ (List.mem_singleton.2 rfl) (by decide) rfl⟩

/-! ### Lemmas on the relaxation pass -/

theorem relaxPass_queue_sub (t : TerrainMap) (curr : ℚ) (obsX obsY : List Int) :
    ∀ (ns : List Cell) (f : IField) (q : List Cell) (x : Cell),
    x ∈ q → x ∈ (relaxPass t curr obsX obsY ns f q).2 := by
  intro ns
  induction ns with
  | nil => intro f q x hx; simpa [relaxPass] using hx
  | cons n ns ih =>
      intro f q x hx
      simp only [relaxPass]
      split_ifs with h1 h2 h3
      · exact ih _ _ _ hx
      · exact ih _ _ _ hx
      · exact ih _ _ _ (List.mem_append_left _ hx)
      · exact ih _ _ _ hx

theorem relaxPass_le (t : TerrainMap) (curr : ℚ) (obsX obsY : List Int) :
    ∀ (ns : List Cell) (f : IField) (q : List Cell) (x : Cell), pathable t x →
    readVal (relaxPass t curr obsX obsY ns f q).1 x ≤ readVal f x := by
  intro ns
  induction ns with
  | nil => intro f q x _; simp [relaxPass]
  | cons n ns ih =>
      intro f q x hx
      simp only [relaxPass]
      split_ifs with h1 h2 h3
      · have hxn : x ≠ n := fun he => hx (he ▸ h1)
        have := ih (setVal f n fmax) q x hx
        rwa [readVal_setVal, if_neg hxn] at this
      · exact ih _ _ _ hx
      · by_cases hxn : x = n
        · subst hxn
          have := ih (setVal f x (curr + (t.get_cell x).movement_cost)) (q ++ [x]) x hx
          rw [readVal_setVal, if_pos rfl] at this
          exact this.trans (le_of_lt h3)
        · have := ih (setVal f n (curr + (t.get_cell n).movement_cost)) (q ++ [n]) x hx
          rwa [readVal_setVal, if_neg hxn] at this
      · exact ih _ _ _ hx

theorem relaxPass_lt_mem (t : TerrainMap) (curr : ℚ) (obsX obsY : List Int) :
    ∀ (ns : List Cell) (f : IField) (q : List Cell) (x : Cell), pathable t x →
    readVal (relaxPass t curr obsX obsY ns f q).1 x < readVal f x →
    x ∈ (relaxPass t curr obsX obsY ns f q).2 := by
  intro ns
  induction ns with
  | nil => intro f q x _ hlt; simp [relaxPass] at hlt
  | cons n ns ih =>
      intro f q x hx hlt
      simp only [relaxPass] at hlt ⊢
      split_ifs at hlt ⊢ with h1 h2 h3
      · have hxn : x ≠ n := fun he => hx (he ▸ h1)
        rw [show readVal f x = readVal (setVal f n fmax) x by
          rw [readVal_setVal, if_neg hxn]] at hlt
        exact ih _ _ _ hx hlt
      · exact ih _ _ _ hx hlt
      · by_cases hxn : x = n
        · subst hxn
          exact relaxPass_queue_sub t curr obsX obsY ns _ _ x
            (List.mem_append_right _ (List.mem_singleton.2 rfl))
        · rw [show readVal f x
              = readVal (setVal f n (curr + (t.get_cell n).movement_cost)) x by
            rw [readVal_setVal, if_neg hxn]] at hlt
          exact ih _ _ _ hx hlt
      · exact ih _ _ _ hx hlt

theorem relaxPass_impassable (t : TerrainMap) (curr : ℚ) (obsX obsY : List Int) :
    ∀ (ns : List Cell) (f : IField) (q : List Cell) (x : Cell), ¬ pathable t x →
    readVal (relaxPass t curr obsX obsY ns f q).1 x = readVal f x ∨
    readVal (relaxPass t curr obsX obsY ns f q).1 x = fmax := by
  intro ns
  induction ns with
  | nil => intro f q x _; left; simp [relaxPass]
  | cons n ns ih =>
      intro f q x hx
      simp only [relaxPass]
      split_ifs with h1 h2 h3
      · by_cases hxn : x = n
        · subst hxn
          rcases ih (setVal f x fmax) q x hx with h | h
          · right; rwa [readVal_setVal, if_pos rfl] at h
          · right; exact h
        · rcases ih (setVal f n fmax) q x hx with h | h
          · left; rwa [readVal_setVal, if_neg hxn] at h
          · right; exact h
      · exact ih _ _ _ hx
      · have hxn : x ≠ n := fun he => hx (he ▸ fun h0 => h1 h0)
        rcases ih (setVal f n (curr + (t.get_cell n).movement_cost)) (q ++ [n]) x hx with
          h | h
        · left; rwa [readVal_setVal, if_neg hxn] at h
        · right; exact h
      · exact ih _ _ _ hx

theorem relaxPass_untouched (t : TerrainMap) (curr : ℚ) (obsX obsY : List Int) :
    ∀ (ns : List Cell) (f : IField) (q : List Cell) (x : Cell), x ∉ ns →
    readVal (relaxPass t curr obsX obsY ns f q).1 x = readVal f x := by
  intro ns
  induction ns with
  | nil => intro f q x _; simp [relaxPass]
  | cons n ns ih =>
      intro f q x hx
      have hxn : x ≠ n := fun he => hx (he ▸ List.mem_cons_self n ns)
      have hxns : x ∉ ns := fun he => hx (List.mem_cons_of_mem n he)
      simp only [relaxPass]
      split_ifs with h1 h2 h3
      · rw [ih _ _ _ hxns, readVal_setVal, if_neg hxn]
      · exact ih _ _ _ hxns
      · rw [ih _ _ _ hxns, readVal_setVal, if_neg hxn]
      · exact ih _ _ _ hxns

theorem relaxPass_establish (t : TerrainMap) (curr : ℚ) (obsX obsY : List Int) :
    ∀ (ns : List Cell) (f : IField) (q : List Cell) (n : Cell), n ∈ ns → pathable t n →
    n.1 ∉ obsX → n.2 ∉ obsY →
    readVal (relaxPass t curr obsX obsY ns f q).1 n
      ≤ curr + (t.get_cell n).movement_cost := by
  intro ns
  induction ns with
  | nil => intro f q n hn; cases hn
  | cons m ns ih =>
      intro f q n hn hpa hox hoy
      by_cases hn' : n ∈ ns
      · simp only [relaxPass]
        split_ifs with h1 h2 h3
        · exact ih _ _ _ hn' hpa hox hoy
        · exact ih _ _ _ hn' hpa hox hoy
        · exact ih _ _ _ hn' hpa hox hoy
        · exact ih _ _ _ hn' hpa hox hoy
      · have hnm : n = m := by
          rcases List.mem_cons.1 hn with h | h
          · exact h
          · exact absurd h hn'
        subst hnm
        simp only [relaxPass]
        split_ifs with h1 h2 h3
        · exact absurd h1 hpa
        · exact absurd h2 (by
            rintro (hx | hy)
            · exact hox hx
            · exact hoy hy)
        · have hle := relaxPass_le t curr obsX obsY ns
            (setVal f n (curr + (t.get_cell n).movement_cost)) (q ++ [n]) n hpa
          rwa [readVal_setVal, if_pos rfl] at hle
        · have hle := relaxPass_le t curr obsX obsY ns f q n hpa
          exact hle.trans (not_lt.1 h3)

/-! ### Neighbor-list membership lemmas -/

theorem mem_orthognal_spec (c b n : Cell) (h : n ∈ get_orthognal_neighbor_cells c b) :
    (n.1 ≠ c.1 ∧ n.2 = c.2) ∨ (n.1 = c.1 ∧ n.2 ≠ c.2) := by
  unfold get_orthognal_neighbor_cells at h
  rcases List.mem_append.1 h with h | h
  · obtain ⟨x, _, hsome⟩ := List.mem_filterMap.1 h
    split_ifs at hsome with hc
    injection hsome with he
    subst he
    exact Or.inl ⟨hc.2.2, rfl⟩
  · obtain ⟨y, _, hsome⟩ := List.mem_filterMap.1 h
    split_ifs at hsome with hc
    injection hsome with he
    subst he
    exact Or.inr ⟨rfl, hc.2.2⟩

theorem mem_diagonal_spec (c b n : Cell) (h : n ∈ get_diagonal_neighbor_cells c b) :
    n.1 ≠ c.1 ∧ n.2 ≠ c.2 := by
  unfold get_diagonal_neighbor_cells at h
  obtain ⟨x, _, hy⟩ := List.mem_flatMap.1 h
  obtain ⟨y, _, hsome⟩ := List.mem_filterMap.1 hy
  split_ifs at hsome with hc1 hc2
  injection hsome with he
  subst he
  exact ⟨fun hx => hc1 (Or.inl hx), fun hy2 => hc1 (Or.inr hy2)⟩

theorem not_mem_orthognal_self (c b : Cell) : c ∉ get_orthognal_neighbor_cells c b := by
  intro h
  rcases mem_orthognal_spec c b c h with ⟨h1, _⟩ | ⟨_, h2⟩
  · exact h1 rfl
  · exact h2 rfl

theorem not_mem_diagonal_self (c b : Cell) : c ∉ get_diagonal_neighbor_cells c b := by
  intro h
  exact (mem_diagonal_spec c b c h).1 rfl

theorem diagonal_not_orthognal (c b n : Cell) (h : n ∈ get_diagonal_neighbor_cells c b) :
    n ∉ get_orthognal_neighbor_cells c b := by
  intro h2
  obtain ⟨hx, hy⟩ := mem_diagonal_spec c b n h
  rcases mem_orthognal_spec c b n h2 with ⟨_, h4⟩ | ⟨h3, _⟩
  · exact hy h4
  · exact hx h3

/-! ### Lemmas on processNode and the propagation invariant -/

theorem relaxPass_skipped (t : TerrainMap) (curr : ℚ) (obsX obsY : List Int) :
    ∀ (ns : List Cell) (f : IField) (q : List Cell) (x : Cell), pathable t x →
    (x.1 ∈ obsX ∨ x.2 ∈ obsY) →
    readVal (relaxPass t curr obsX obsY ns f q).1 x = readVal f x := by
  intro ns
  induction ns with
  | nil => intro f q x _ _; simp [relaxPass]
  | cons n ns ih =>
      intro f q x hx hskip
      simp only [relaxPass]
      split_ifs with h1 h2 h3
      · by_cases hxn : x = n
        · subst hxn; exact absurd h1 hx
        · rw [ih _ _ _ hx hskip, readVal_setVal, if_neg hxn]
      · exact ih _ _ _ hx hskip
      · by_cases hxn : x = n
        · subst hxn; exact absurd hskip h2
        · rw [ih _ _ _ hx hskip, readVal_setVal, if_neg hxn]
      · exact ih _ _ _ hx hskip

theorem processNode_queue_sub (t : TerrainMap) (f : IField) (node : Cell) (q : List Cell)
    (x : Cell) (hx : x ∈ q) : x ∈ (processNode t f node q).2 := by
  unfold processNode
  exact relaxPass_queue_sub _ _ _ _ _ _ _ _ (relaxPass_queue_sub _ _ _ _ _ _ _ _ hx)

theorem processNode_le (t : TerrainMap) (f : IField) (node : Cell) (q : List Cell)
    (x : Cell) (hx : pathable t x) :
    readVal (processNode t f node q).1 x ≤ readVal f x := by
  unfold processNode
  exact (relaxPass_le _ _ _ _ _ _ _ _ hx).trans (relaxPass_le _ _ _ _ _ _ _ _ hx)

theorem processNode_lt_mem (t : TerrainMap) (f : IField) (node : Cell) (q : List Cell)
    (x : Cell) (hx : pathable t x)
    (hlt : readVal (processNode t f node q).1 x < readVal f x) :
    x ∈ (processNode t f node q).2 := by
  unfold processNode at hlt ⊢
  rcases lt_or_le
      (readVal (relaxPass t (readVal f node) [] []
        (get_orthognal_neighbor_cells node t.max_bounds) f q).1 x)
      (readVal f x) with h | h
  · exact relaxPass_queue_sub _ _ _ _ _ _ _ _ (relaxPass_lt_mem _ _ _ _ _ _ _ _ hx h)
  · exact relaxPass_lt_mem _ _ _ _ _ _ _ _ hx (lt_of_lt_of_le hlt h)

theorem processNode_impassable (t : TerrainMap) (f : IField) (node : Cell)
    (q : List Cell) (x : Cell) (hx : ¬ pathable t x) :
    readVal (processNode t f node q).1 x = readVal f x ∨
    readVal (processNode t f node q).1 x = fmax := by
  unfold processNode
  rcases relaxPass_impassable t (readVal f node) (cornerObstaclesX t node)
      (cornerObstaclesY t node) (get_diagonal_neighbor_cells node t.max_bounds)
      _ _ x hx with h | h
  · rcases relaxPass_impassable t (readVal f node) [] []
        (get_orthognal_neighbor_cells node t.max_bounds) f q x hx with h2 | h2
    · left; rw [h, h2]
    · right; rw [h, h2]
  · right; exact h

theorem processNode_node_val (t : TerrainMap) (f : IField) (node : Cell)
    (q : List Cell) :
    readVal (processNode t f node q).1 node = readVal f node := by
  unfold processNode
  rw [relaxPass_untouched _ _ _ _ _ _ _ _ (not_mem_diagonal_self node t.max_bounds),
      relaxPass_untouched _ _ _ _ _ _ _ _ (not_mem_orthognal_self node t.max_bounds)]

theorem processNode_relaxed (t : TerrainMap) (f : IField) (node : Cell)
    (q : List Cell) : relaxedAt t (processNode t f node q).1 node := by
  have hval := processNode_node_val t f node q
  refine ⟨fun n hn hpa => ?_, fun n hn hpa hox hoy => ?_⟩
  · rw [hval]
    have h1 : readVal (relaxPass t (readVal f node) [] []
        (get_orthognal_neighbor_cells node t.max_bounds) f q).1 n
        ≤ readVal f node + (t.get_cell n).movement_cost :=
      relaxPass_establish t (readVal f node) [] [] _ f q n hn hpa
        (List.not_mem_nil _) (List.not_mem_nil _)
    refine le_trans ?_ h1
    unfold processNode
    exact relaxPass_le _ _ _ _ _ _ _ _ hpa
  · rw [hval]
    unfold processNode
    exact relaxPass_establish t (readVal f node) _ _ _ _ _ n hn hpa hox hoy

theorem processNode_preserve (t : TerrainMap) (f : IField) (node : Cell)
    (q : List Cell) (c : Cell) (hInv : PropInv t f (node :: q))
    (heq : readVal (processNode t f node q).1 c = readVal f c)
    (hfin : readVal (processNode t f node q).1 c ≠ fmax) :
    c ∈ (processNode t f node q).2 ∨ relaxedAt t (processNode t f node q).1 c := by
  have hfin0 : readVal f c ≠ fmax := heq ▸ hfin
  rcases hInv c hfin0 with hq | hrel
  · rcases List.mem_cons.1 hq with hceq | hq2
    · rw [hceq]
      exact Or.inr (processNode_relaxed t f node q)
    · exact Or.inl (processNode_queue_sub t f node q c hq2)
  · right
    obtain ⟨ho, hd⟩ := hrel
    refine ⟨fun n hn hpan => ?_, fun n hn hpan hox hoy => ?_⟩
    · rw [heq]
      exact (processNode_le t f node q n hpan).trans (ho n hn hpan)
    · rw [heq]
      exact (processNode_le t f node q n hpan).trans (hd n hn hpan hox hoy)

theorem processNode_inv (t : TerrainMap) (f : IField) (node : Cell) (q : List Cell)
    (hInv : PropInv t f (node :: q)) :
    PropInv t (processNode t f node q).1 (processNode t f node q).2 := by
  intro c hfin
  by_cases hpa : pathable t c
  · rcases lt_or_eq_of_le (processNode_le t f node q c hpa) with hlt | heq
    · exact Or.inl (processNode_lt_mem t f node q c hpa hlt)
    · exact processNode_preserve t f node q c hInv heq hfin
  · rcases processNode_impassable t f node q c hpa with heq | hmax
    · exact processNode_preserve t f node q c hInv heq hfin
    · exact absurd hmax hfin

theorem propagate_fixpoint (t : TerrainMap) :
    ∀ (fuel : Nat) (f : IField) (q : List Cell), PropInv t f q →
    (propagate t fuel f q).2 = [] →
    ∀ c, readVal (propagate t fuel f q).1 c ≠ fmax →
    relaxedAt t (propagate t fuel f q).1 c := by
  intro fuel
  induction fuel with
  | zero =>
      intro f q hInv hq c hfin
      simp only [propagate] at hq hfin ⊢
      rcases hInv c hfin with hmem | hrel
      · rw [hq] at hmem; cases hmem
      · exact hrel
  | succ fuel ih =>
      intro f q hInv hq c hfin
      cases q with
      | nil =>
          simp only [propagate] at hq hfin ⊢
          rcases hInv c hfin with hmem | hrel
          · cases hmem
          · exact hrel
      | cons node rest =>
          simp only [propagate] at hq hfin ⊢
          exact ih _ _ (processNode_inv t f node rest hInv) hq c hfin

theorem seed_inv (t : TerrainMap) (seeds : List Cell) :
    PropInv t (seedField seeds) seeds := by
  intro c hfin
  rw [readVal_seedField] at hfin
  by_cases h : c ∈ seeds
  · exact Or.inl h
  · rw [if_neg h] at hfin
    exact absurd rfl hfin

/-! ### Claim C1: the integration field is a relaxation fixed point -/

/-- Claim C1: when the wavefront propagation loop of `build_flow_fields`
terminates for a faction (the open queue drains within the given fuel), every
pathable cell `c` holding a finite (non-`MAX`) integration value is locally
relaxed: each pathable orthogonal neighbor `n`, and each pathable diagonal
neighbor admissible under the corner-cutting rule, satisfies
`v(n) ≤ v(c) + movement_cost(n)`. -/
theorem C1_integration_fixpoint (t : TerrainMap) (seeds : List Cell) (fuel : Nat)
    (hterm : (runPropagation t fuel seeds).2 = []) (c : Cell)
    (hpa : pathable t c)
    (hfin : readVal (runPropagation t fuel seeds).1 c ≠ fmax) :
    relaxedAt t (runPropagation t fuel seeds).1 c := by
  unfold runPropagation at hterm hfin ⊢
  exact propagate_fixpoint t fuel _ _ (seed_inv t seeds) hterm c hfin

/-- Witness for `C1_integration_fixpoint`: the specification's first
end-to-end scenario (a pathable `3 × 1` strip seeded at `(2, 0)`), at the
pathable finite cell `(0, 0)`. -/
theorem C1_integration_fixpoint_witness :
    (runPropagation terrainStrip 10 [(2, 0)]).2 = [] ∧
    pathable terrainStrip (0, 0) ∧
    readVal (runPropagation terrainStrip 10 [(2, 0)]).1 (0, 0) ≠ fmax ∧
    relaxedAt terrainStrip (runPropagation terrainStrip 10 [(2, 0)]).1 (0, 0) :=
  ⟨by with_unfolding_all decide, by decide, by with_unfolding_all decide,
    C1_integration_fixpoint terrainStrip [(2, 0)] 10 (by with_unfolding_all decide)
      (0, 0) (by decide) (by with_unfolding_all decide)⟩

/-! ### Claim C2: corner-cutting prevention during propagation -/

/-- Claim C2: when a node is dequeued by the propagation loop, a pathable
diagonal neighbor whose x-coordinate matches a blocked east/west orthogonal
neighbor, or whose y-coordinate matches a blocked north/south orthogonal
neighbor, is never relaxed from that node — its integration value is left
exactly as it was. -/
theorem C2_corner_cutting (t : TerrainMap) (f : IField) (q : List Cell)
    (node n : Cell)
    (hmem : n ∈ get_diagonal_neighbor_cells node t.max_bounds)
    (hpa : pathable t n)
    (hskip : n.1 ∈ cornerObstaclesX t node ∨ n.2 ∈ cornerObstaclesY t node) :
    readVal (processNode t f node q).1 n = readVal f n := by
  unfold processNode
  rw [relaxPass_skipped t _ _ _ _ _ _ n hpa hskip,
      relaxPass_untouched t _ [] [] _ f q n
        (fun hmem2 => diagonal_not_orthognal node t.max_bounds n hmem hmem2)]

/-- Witness for `C2_corner_cutting`: node `(0, 0)` with its east neighbor
`(1, 0)` impassable; the pathable diagonal `(1, 1)` shares that x-coordinate
and keeps its value 7 untouched. -/
theorem C2_corner_cutting_witness :
    (1, 1) ∈ get_diagonal_neighbor_cells (0, 0) terrainEastBlocked.max_bounds ∧
    pathable terrainEastBlocked (1, 1) ∧
    ((1, 1) : Cell).1 ∈ cornerObstaclesX terrainEastBlocked (0, 0) ∧
    readVal (processNode terrainEastBlocked [((0, 0), 0), ((1, 1), 7)] (0, 0) []).1 (1, 1)
      = readVal [((0, 0), 0), ((1, 1), 7)] (1, 1) :=
  ⟨by decide, by decide, by decide,
    C2_corner_cutting terrainEastBlocked [((0, 0), 0), ((1, 1), 7)] [] (0, 0) (1, 1)
      (by decide) (by decide) (Or.inl (by decide))⟩

/-! ### Claim C3: spatial hash bucket soundness -/

theorem mem_hashes_iff (px py r cs : ℚ) (n : Cell) :
    n ∈ get_all_spatial_hashes_from_circle px py r cs ↔
      ((get_point_spatial_hash (px - r) (py - r) cs).1 ≤ n.1 ∧
       n.1 ≤ (get_point_spatial_hash (px + r) (py + r) cs).1 ∧
       (get_point_spatial_hash (px - r) (py - r) cs).2 ≤ n.2 ∧
       n.2 ≤ (get_point_spatial_hash (px + r) (py + r) cs).2) := by
  unfold get_all_spatial_hashes_from_circle
  constructor
  · intro h
    obtain ⟨x, hx, hmem⟩ := List.mem_flatMap.1 h
    obtain ⟨y, hy, heq⟩ := List.mem_map.1 hmem
    subst heq
    rw [mem_intRangeIncl] at hx hy
    exact ⟨hx.1, hx.2, hy.1, hy.2⟩
  · rintro ⟨h1, h2, h3, h4⟩
    refine List.mem_flatMap.2 ⟨n.1, ?_, List.mem_map.2 ⟨n.2, ?_, ?_⟩⟩
    · exact (mem_intRangeIncl _ _ _).2 ⟨h1, h2⟩
    · exact (mem_intRangeIncl _ _ _).2 ⟨h3, h4⟩
    · exact Prod.mk.eta

theorem bucketOf_cons (c' : Cell) (l : List Nat) (rest : HashTable) (c : Cell) :
    bucketOf ((c', l) :: rest) c = if c' = c then l else bucketOf rest c := by
  by_cases h : c' = c
  · rw [if_pos h]
    unfold bucketOf
    rw [List.find?_cons_of_pos _ (by simp [h])]
  · rw [if_neg h]
    unfold bucketOf
    rw [List.find?_cons_of_neg _ (by simp [h])]

theorem bucketOf_tableInsert_self (tb : HashTable) (c : Cell) (e : Nat) :
    e ∈ bucketOf (tableInsert c e tb) c := by
  induction tb with
  | nil =>
      unfold tableInsert
      rw [bucketOf_cons, if_pos rfl]
      exact List.mem_singleton.2 rfl
  | cons hd rest ih =>
      obtain ⟨c', l⟩ := hd
      unfold tableInsert
      by_cases h : c' = c
      · rw [if_pos h, bucketOf_cons, if_pos h]
        exact List.mem_append_right _ (List.mem_singleton.2 rfl)
      · rw [if_neg h, bucketOf_cons, if_neg h]
        exact ih

theorem bucketOf_tableInsert_mono (tb : HashTable) (c2 : Cell) (e2 : Nat) (c : Cell)
    (e : Nat) (h : e ∈ bucketOf tb c) : e ∈ bucketOf (tableInsert c2 e2 tb) c := by
  induction tb with
  | nil =>
      unfold bucketOf at h
      simp [List.find?] at h
  | cons hd rest ih =>
      obtain ⟨c', l⟩ := hd
      rw [bucketOf_cons] at h
      unfold tableInsert
      by_cases h2 : c' = c2
      · rw [if_pos h2, bucketOf_cons]
        by_cases h3 : c' = c
        · rw [if_pos h3]
          rw [if_pos h3] at h
          exact List.mem_append_left _ h
        · rw [if_neg h3]
          rw [if_neg h3] at h
          exact h
      · rw [if_neg h2, bucketOf_cons]
        by_cases h3 : c' = c
        · rw [if_pos h3]
          rw [if_pos h3] at h
          exact h
        · rw [if_neg h3]
          rw [if_neg h3] at h
          exact ih h

theorem bucketOf_foldl_mono (e2 : Nat) :
    ∀ (cells : List Cell) (tb : HashTable) (c : Cell) (e : Nat), e ∈ bucketOf tb c →
    e ∈ bucketOf (cells.foldl (fun acc x => tableInsert x e2 acc) tb) c := by
  intro cells
  induction cells with
  | nil => intro tb c e h; exact h
  | cons x xs ih =>
      intro tb c e h
      exact ih _ _ _ (bucketOf_tableInsert_mono tb x e2 c e h)

theorem bucketOf_foldl_self (e : Nat) :
    ∀ (cells : List Cell) (tb : HashTable) (c : Cell), c ∈ cells →
    e ∈ bucketOf (cells.foldl (fun acc x => tableInsert x e acc) tb) c := by
  intro cells
  induction cells with
  | nil => intro tb c h; cases h
  | cons x xs ih =>
      intro tb c h
      rcases List.mem_cons.1 h with hce | hmem
      · subst hce
        exact bucketOf_foldl_mono e xs _ c e (bucketOf_tableInsert_self tb c e)
      · exact ih _ c hmem

theorem bucketOf_insertAgent_self (tb : HashTable) (a : HAgent) (c : Cell)
    (hc : c ∈ get_all_spatial_hashes_from_circle a.px a.py a.r 36) :
    a.id ∈ bucketOf (insertAgentHashes tb a) c :=
  bucketOf_foldl_self a.id _ tb c hc

theorem bucketOf_insertAgent_mono (tb : HashTable) (a : HAgent) (c : Cell) (e : Nat)
    (h : e ∈ bucketOf tb c) : e ∈ bucketOf (insertAgentHashes tb a) c :=
  bucketOf_foldl_mono a.id _ tb c e h

theorem bucketOf_buildFold_mono :
    ∀ (agents : List HAgent) (tb : HashTable) (c : Cell) (e : Nat),
    e ∈ bucketOf tb c → e ∈ bucketOf (agents.foldl insertAgentHashes tb) c := by
  intro agents
  induction agents with
  | nil => intro tb c e h; exact h
  | cons x xs ih =>
      intro tb c e h
      exact ih _ _ _ (bucketOf_insertAgent_mono tb x c e h)

theorem bucketOf_build_mem :
    ∀ (agents : List HAgent) (tb : HashTable) (a : HAgent) (c : Cell), a ∈ agents →
    c ∈ get_all_spatial_hashes_from_circle a.px a.py a.r 36 →
    a.id ∈ bucketOf (agents.foldl insertAgentHashes tb) c := by
  intro agents
  induction agents with
  | nil => intro tb a c hmem _; cases hmem
  | cons x xs ih =>
      intro tb a c hmem hc
      rcases List.mem_cons.1 hmem with hax | hmem2
      · subst hax
        exact bucketOf_buildFold_mono xs _ c a.id (bucketOf_insertAgent_self tb a c hc)
      · exact ih _ a c hmem2 hc

theorem hash_div_mono {p q cs : ℚ} (hcs : 0 < cs) (h : p ≤ q) :
    ratCastI32 (p / cs) ≤ ratCastI32 (q / cs) :=
  ratCastI32_mono (by gcongr)

/-- Claim C3: for every pair of agents whose bounding circles overlap
(squared distance between positions less than the squared sum of their
radii), building the spatial hash table places both agents together in at
least one common bucket. -/
theorem C3_bucket_soundness (agents : List HAgent) (a b : HAgent)
    (ha : a ∈ agents) (hb : b ∈ agents) (hra : 0 ≤ a.r) (hrb : 0 ≤ b.r)
    (hov : (a.px - b.px) ^ 2 + (a.py - b.py) ^ 2 < (a.r + b.r) ^ 2) :
    ∃ c : Cell, a.id ∈ bucketOf (build_spatial_hash_table agents) c ∧
      b.id ∈ bucketOf (build_spatial_hash_table agents) c := by
  have hx1 : a.px - b.px < a.r + b.r := by nlinarith [sq_nonneg (a.py - b.py)]
  have hx2 : -(a.r + b.r) < a.px - b.px := by nlinarith [sq_nonneg (a.py - b.py)]
  have hy1 : a.py - b.py < a.r + b.r := by nlinarith [sq_nonneg (a.px - b.px)]
  have hy2 : -(a.r + b.r) < a.py - b.py := by nlinarith [sq_nonneg (a.px - b.px)]
  set mx : ℚ := max (a.px - a.r) (b.px - b.r) with hmx
  set my : ℚ := max (a.py - a.r) (b.py - b.r) with hmy
  have hmxa1 : a.px - a.r ≤ mx := le_max_left _ _
  have hmxb1 : b.px - b.r ≤ mx := le_max_right _ _
  have hmxa2 : mx ≤ a.px + a.r := max_le (by linarith) (by linarith)
  have hmxb2 : mx ≤ b.px + b.r := max_le (by linarith) (by linarith)
  have hmya1 : a.py - a.r ≤ my := le_max_left _ _
  have hmyb1 : b.py - b.r ≤ my := le_max_right _ _
  have hmya2 : my ≤ a.py + a.r := max_le (by linarith) (by linarith)
  have hmyb2 : my ≤ b.py + b.r := max_le (by linarith) (by linarith)
  have h36 : (0 : ℚ) < 36 := by norm_num
  refine ⟨(ratCastI32 (mx / 36), ratCastI32 (my / 36)), ?_, ?_⟩
  · refine bucketOf_build_mem agents [] a _ ha ?_
    rw [mem_hashes_iff]
    exact ⟨hash_div_mono h36 hmxa1, hash_div_mono h36 hmxa2,
      hash_div_mono h36 hmya1, hash_div_mono h36 hmya2⟩
  · refine bucketOf_build_mem agents [] b _ hb ?_
    rw [mem_hashes_iff]
    exact ⟨hash_div_mono h36 hmxb1, hash_div_mono h36 hmxb2,
      hash_div_mono h36 hmyb1, hash_div_mono h36 hmyb2⟩

/-- Witness for `C3_bucket_soundness`: two overlapping unit-radius agents at
distance 1. -/
theorem C3_bucket_soundness_witness :
    (⟨1, 0, 0, 1⟩ : HAgent) ∈ [(⟨1, 0, 0, 1⟩ : HAgent), ⟨2, 1, 0, 1⟩] ∧
    (⟨2, 1, 0, 1⟩ : HAgent) ∈ [(⟨1, 0, 0, 1⟩ : HAgent), ⟨2, 1, 0, 1⟩] ∧
    ((0 : ℚ) - 1) ^ 2 + ((0 : ℚ) - 0) ^ 2 < ((1 : ℚ) + 1) ^ 2 ∧
    ∃ c : Cell,
      1 ∈ bucketOf (build_spatial_hash_table [⟨1, 0, 0, 1⟩, ⟨2, 1, 0, 1⟩]) c ∧
      2 ∈ bucketOf (build_spatial_hash_table [⟨1, 0, 0, 1⟩, ⟨2, 1, 0, 1⟩]) c :=
  ⟨List.mem_cons_self _ _, List.mem_cons_of_mem _ (List.mem_cons_self _ _), by norm_num,
    C3_bucket_soundness [⟨1, 0, 0, 1⟩, ⟨2, 1, 0, 1⟩] ⟨1, 0, 0, 1⟩ ⟨2, 1, 0, 1⟩
      (List.mem_cons_self _ _) (List.mem_cons_of_mem _ (List.mem_cons_self _ _))
      (by norm_num) (by norm_num) (by norm_num)⟩

/-! ### Claim C5: the get_neighbors query contract -/

theorem findIdx?_spec {α : Type} (p : α → Bool) :
    ∀ (l : List α) (s i : Nat), List.findIdx? p l s = some i →
    s ≤ i ∧ (∃ x, l.get? (i - s) = some x ∧ p x = true) ∧
    ∀ j y, j < i - s → l.get? j = some y → p y = false := by
  intro l
  induction l with
  | nil => intro s i h; simp [List.findIdx?] at h
  | cons a as ih =>
      intro s i h
      rw [List.findIdx?_cons] at h
      split_ifs at h with hp
      · injection h with h
        subst h
        refine ⟨le_refl _, ⟨a, by simp, hp⟩, fun j y hj _ => absurd hj (by omega)⟩
      · obtain ⟨hsi, ⟨x, hx, hpx⟩, hall⟩ := ih (s + 1) i h
        refine ⟨by omega, ⟨x, ?_, hpx⟩, ?_⟩
        · have he : i - s = (i - (s + 1)) + 1 := by omega
          rw [he]
          simpa using hx
        · intro j y hj hy
          cases j with
          | zero =>
              simp only [List.get?_cons_zero] at hy
              injection hy with hy
              subst hy
              exact eq_false_of_ne_true hp
          | succ j =>
              refine hall j y (by omega) ?_
              simpa using hy

/-- Claim C5: `get_neighbors` selects the tier of the first (with ascending
radii: the smallest) configured radius that is at least the requested
distance, or the last (largest) tier when none qualifies; it returns `none`
exactly when the agent is absent from that tier's map, and otherwise the
cached entries filtered to recorded distance at most the requested distance
(on the stored squares: `0 ≤ distance ∧ dsq ≤ distance²`). -/
theorem C5_get_neighbors_contract (radii : List ℚ) (cache : Cache) (ent : Nat)
    (distance : ℚ) (hne : radii ≠ []) (hsorted : radii.Sorted (· ≤ ·))
    (hlen : cache.length = radii.length) :
    ∃ i r tier, radii.get? i = some r ∧ cache.get? i = some tier ∧
      (∀ j r2, j < i → radii.get? j = some r2 → r2 < distance) ∧
      (distance ≤ r ∨ i = radii.length - 1) ∧
      (get_neighbors radii cache ent distance = none ↔ tierGet tier ent = none) ∧
      (∀ l, tierGet tier ent = some l →
        get_neighbors radii cache ent distance =
          some (l.filterMap (fun e =>
            if 0 ≤ distance ∧ e.2 ≤ distance * distance then some e.1 else none))) := by
  have hlenpos : 0 < radii.length := List.length_pos.2 hne
  cases hidx : radii.findIdx? (fun r => decide (distance ≤ r)) with
  | some i =>
      obtain ⟨-, ⟨x, hx, hpx⟩, hall⟩ := findIdx?_spec _ radii 0 i hidx
      rw [Nat.sub_zero] at hx hall
      have hi : i < radii.length := by
        by_contra hge
        rw [List.get?_eq_none.2 (by omega)] at hx
        cases hx
      have hic : i < cache.length := by omega
      obtain ⟨tier, htier⟩ : ∃ tier, cache.get? i = some tier := by
        cases hc : cache.get? i with
        | none => rw [List.get?_eq_none] at hc; omega
        | some tier => exact ⟨tier, rfl⟩
      refine ⟨i, x, tier, hx, htier, ?_, Or.inl (of_decide_eq_true hpx), ?_, ?_⟩
      · intro j r2 hj hr2
        have := hall j r2 hj hr2
        exact not_le.1 (of_decide_eq_false this)
      · unfold get_neighbors
        simp only [hidx, htier]
        cases htg : tierGet tier ent with
        | none => simp [htg]
        | some l => simp [htg]
      · intro l htg
        unfold get_neighbors
        simp only [hidx, htier, htg]
  | none =>
      have hall := List.findIdx?_eq_none_iff.1 hidx
      obtain ⟨x, hx⟩ : ∃ x, radii.get? (radii.length - 1) = some x := by
        cases hc : radii.get? (radii.length - 1) with
        | none => rw [List.get?_eq_none] at hc; omega
        | some y => exact ⟨y, rfl⟩
      obtain ⟨tier, htier⟩ : ∃ tier, cache.get? (radii.length - 1) = some tier := by
        cases hc : cache.get? (radii.length - 1) with
        | none => rw [List.get?_eq_none] at hc; omega
        | some tier => exact ⟨tier, rfl⟩
      refine ⟨radii.length - 1, x, tier, hx, htier, ?_, Or.inr rfl, ?_, ?_⟩
      · intro j r2 _ hr2
        have hmem : r2 ∈ radii := List.get?_mem hr2
        exact not_le.1 (of_decide_eq_false (hall r2 hmem))
      · unfold get_neighbors
        simp only [hidx, htier]
        cases htg : tierGet tier ent with
        | none => simp [htg]
        | some l => simp [htg]
      · intro l htg
        unfold get_neighbors
        simp only [hidx, htier, htg]

/-- Witness for `C5_get_neighbors_contract`: tiers `[4, 16, 64]` with a
hand-built cache. -/
theorem C5_get_neighbors_contract_witness :
    ([(4 : ℚ), 16, 64] : List ℚ) ≠ [] ∧
    ([(4 : ℚ), 16, 64] : List ℚ).Sorted (· ≤ ·) ∧
    ([[(7, [(9, 25)])], [], []] : Cache).length = ([(4 : ℚ), 16, 64] : List ℚ).length ∧
    ∃ i r tier, ([(4 : ℚ), 16, 64] : List ℚ).get? i = some r ∧
      ([[(7, [(9, 25)])], [], []] : Cache).get? i = some tier ∧
      (∀ j r2, j < i → ([(4 : ℚ), 16, 64] : List ℚ).get? j = some r2 → r2 < 10) ∧
      ((10 : ℚ) ≤ r ∨ i = ([(4 : ℚ), 16, 64] : List ℚ).length - 1) ∧
      (get_neighbors [4, 16, 64] [[(7, [(9, 25)])], [], []] 7 10 = none ↔
        tierGet tier 7 = none) ∧
      (∀ l, tierGet tier 7 = some l →
        get_neighbors [4, 16, 64] [[(7, [(9, 25)])], [], []] 7 10 =
          some (l.filterMap (fun e =>
            if 0 ≤ (10 : ℚ) ∧ e.2 ≤ 10 * 10 then some e.1 else none))) :=
  ⟨by decide, by
      constructor
      · intro b hb
        rcases List.mem_cons.1 hb with h | h
        · rw [h]; norm_num
        · rw [List.mem_singleton.1 h]; norm_num
      · constructor
        · intro b hb
          rw [List.mem_singleton.1 hb]; norm_num
        · simp,
    rfl,
    C5_get_neighbors_contract [4, 16, 64] [[(7, [(9, 25)])], [], []] 7 10 (by decide)
      (by
        constructor
        · intro b hb
          rcases List.mem_cons.1 hb with h | h
          · rw [h]; norm_num
          · rw [List.mem_singleton.1 h]; norm_num
        · constructor
          · intro b hb
            rw [List.mem_singleton.1 hb]; norm_num
          · simp)
      rfl⟩

/-! ### Claim C7: which cells receive flow vectors -/

theorem isSome_ite_some (p : Prop) [Decidable p] (x y : Vec) :
    (if p then some x else some y).isSome = true := by
  split_ifs <;> rfl

theorem flowEntry_cons (c' : Cell) (v' : Vec) (rest : FField) (c : Cell) :
    flowEntry ((c', v') :: rest) c = if c' = c then some v' else flowEntry rest c := by
  by_cases h : c' = c
  · rw [if_pos h]
    unfold flowEntry
    rw [List.find?_cons_of_pos _ (by simp [h])]
  · rw [if_neg h]
    unfold flowEntry
    rw [List.find?_cons_of_neg _ (by simp [h])]

theorem flowEntry_setFlowVal (ff : FField) (c : Cell) (v : Vec) (x : Cell) :
    flowEntry (setFlowVal ff c v) x = if x = c then some v else flowEntry ff x := by
  induction ff with
  | nil =>
      show flowEntry [(c, v)] x = _
      rw [flowEntry_cons]
      by_cases h : x = c
      · rw [if_pos h.symm, if_pos h]
      · rw [if_neg (fun hc => h hc.symm), if_neg h]
  | cons hd tl ih =>
      obtain ⟨c', v'⟩ := hd
      show flowEntry (if c' = c then (c, v) :: tl else (c', v') :: setFlowVal tl c v) x = _
      by_cases h1 : c' = c
      · rw [if_pos h1, flowEntry_cons, flowEntry_cons]
        subst h1
        by_cases h2 : x = c'
        · rw [if_pos h2.symm, if_pos h2]
        · rw [if_neg (fun hc => h2 hc.symm), if_neg h2,
            if_neg (fun hc => h2 hc.symm)]
      · rw [if_neg h1, flowEntry_cons, ih, flowEntry_cons]
        by_cases h2 : c' = x
        · have hxc : ¬x = c := fun hc => h1 (h2.trans hc)
          rw [if_pos h2, if_neg hxc, if_pos h2]
        · rw [if_neg h2]
          by_cases h3 : x = c
          · rw [if_pos h3, if_pos h3]
          · rw [if_neg h3, if_neg h3, if_neg h2]

theorem buildFlow_aux (t : TerrainMap) (f : IField) (nrm : Vec → Vec) :
    ∀ (keys : List Cell) (ff0 : FField) (c : Cell),
    (flowEntry (keys.foldl (fun ff x =>
        match flowCellVec t f nrm x with
        | none => ff
        | some v => setFlowVal ff x v) ff0) c).isSome = true ↔
    ((flowEntry ff0 c).isSome = true ∨ (c ∈ keys ∧ (flowCellVec t f nrm c).isSome = true)) := by
  intro keys
  induction keys with
  | nil => intro ff0 c; simp
  | cons k ks ih =>
      intro ff0 c
      rw [List.foldl_cons, ih, List.mem_cons]
      cases hk : flowCellVec t f nrm k with
      | none =>
          constructor
          · rintro (h | ⟨hmem, hs⟩)
            · exact Or.inl h
            · exact Or.inr ⟨Or.inr hmem, hs⟩
          · rintro (h | ⟨hmem | hmem, hs⟩)
            · exact Or.inl h
            · rw [hmem, hk] at hs
              cases hs
            · exact Or.inr ⟨hmem, hs⟩
      | some v =>
          rw [show (match some v with
              | none => ff0
              | some w => setFlowVal ff0 k w) = setFlowVal ff0 k v from rfl]
          constructor
          · rintro (h | ⟨hmem, hs⟩)
            · rw [flowEntry_setFlowVal] at h
              by_cases hck : c = k
              · exact Or.inr ⟨Or.inl hck, by rw [hck, hk]; rfl⟩
              · rw [if_neg hck] at h
                exact Or.inl h
            · exact Or.inr ⟨Or.inr hmem, hs⟩
          · rintro (h | ⟨hmem | hmem, hs⟩)
            · left
              rw [flowEntry_setFlowVal]
              by_cases hck : c = k
              · rw [if_pos hck]; rfl
              · rw [if_neg hck]; exact h
            · left
              rw [flowEntry_setFlowVal, if_pos hmem]
              rfl
            · exact Or.inr ⟨hmem, hs⟩

/-- Claim C7 (amended): for one faction's pass of the gradient stage over the
key cells of the (shared) integration field, a flow vector is computed and
stored exactly for the key cells whose recorded integration value for this
faction exceeds `0.01`.  This includes unreached or blocked cells at the
`MAX` sentinel — such cells can receive a nonzero vector (see the
counterexample) — while goal cells (value 0, and any value at most `0.01`)
and cells absent from the keys get no entry, so their flow-field lookup
yields the zero vector. -/
theorem C7_amended (t : TerrainMap) (f : IField) (nrm : Vec → Vec) (keys : List Cell)
    (c : Cell) :
    ((flowEntry (buildFlowForTeam t f nrm keys) c).isSome = true ↔
      (c ∈ keys ∧ 1 / 100 < readVal f c)) ∧
    (¬(c ∈ keys ∧ 1 / 100 < readVal f c) →
      flowLookup (buildFlowForTeam t f nrm keys) c = (0, 0)) := by
  have hiff : (flowEntry (buildFlowForTeam t f nrm keys) c).isSome = true ↔
      (c ∈ keys ∧ 1 / 100 < readVal f c) := by
    unfold buildFlowForTeam
    rw [buildFlow_aux]
    have hfe : flowEntry [] c = none := rfl
    rw [hfe]
    simp only [Option.isSome_none, Bool.false_eq_true, false_or]
    constructor
    · rintro ⟨hk, hs⟩
      refine ⟨hk, ?_⟩
      by_contra hle
      unfold flowCellVec at hs
      rw [if_pos (not_lt.1 hle)] at hs
      cases hs
    · rintro ⟨hk, hlt⟩
      refine ⟨hk, ?_⟩
      unfold flowCellVec
      rw [if_neg (not_le.2 hlt)]
      exact isSome_ite_some _ _ _
  refine ⟨hiff, fun hnc => ?_⟩
  unfold flowLookup
  cases he : flowEntry (buildFlowForTeam t f nrm keys) c with
  | none => rfl
  | some v =>
      exfalso
      apply hnc
      apply hiff.mp
      rw [he]
      rfl

set_option maxRecDepth 4000 in
/-- Claim C7, counterexample: in the second end-to-end scenario (strip with
`(1, 0)` impassable, faction seeded at `(2, 0)`), the blocked cell `(1, 0)`
ends the integration stage at the `MAX` sentinel, yet the gradient stage
stores a nonzero flow vector for it (with the normalization modelled by
`id`): its flow-field lookup yields `(1, 0)`, not the zero vector claimed. -/
theorem C7_counterexample :
    readVal (runPropagation terrainStripBlocked 10 [(2, 0)]).1 (1, 0) = fmax ∧
    flowLookup (buildFlowForTeam terrainStripBlocked
        (runPropagation terrainStripBlocked 10 [(2, 0)]).1 id
        (keysOf (runPropagation terrainStripBlocked 10 [(2, 0)]).1)) (1, 0) = (1, 0) ∧
    ((1, 0) : Vec) ≠ (0, 0) :=
  ⟨by with_unfolding_all rfl, by with_unfolding_all rfl, by with_unfolding_all decide⟩

/-! ### Claim C6: the gradient-extraction branch condition -/

theorem flowAccum_obsX (f : IField) (nrm : Vec → Vec) (c n : Cell) (st : FlowScanSt) :
    (flowAccum f nrm c n st).obsX = st.obsX := by
  unfold flowAccum
  dsimp only
  split_ifs <;> rfl

theorem flowAccum_obsY (f : IField) (nrm : Vec → Vec) (c n : Cell) (st : FlowScanSt) :
    (flowAccum f nrm c n st).obsY = st.obsY := by
  unfold flowAccum
  dsimp only
  split_ifs <;> rfl

theorem flowAccum_minV_le (f : IField) (nrm : Vec → Vec) (c n : Cell) (st : FlowScanSt) :
    (flowAccum f nrm c n st).minV ≤ st.minV := by
  unfold flowAccum
  dsimp only
  split_ifs with h
  · exact le_of_lt h
  · exact le_refl _

theorem flowAccum_minV_bound (f : IField) (nrm : Vec → Vec) (c n : Cell)
    (st : FlowScanSt) :
    (flowAccum f nrm c n st).minV ≤ max (readVal f n) (1 / 100) := by
  unfold flowAccum
  dsimp only
  split_ifs with h
  · exact le_refl _
  · exact not_lt.1 h

theorem orthoFlowScan_obs (t : TerrainMap) (f : IField) (nrm : Vec → Vec) (c : Cell) :
    ∀ (ns : List Cell) (st : FlowScanSt),
    (orthoFlowScan t f nrm c ns st).obsX = st.obsX ++ ns.filterMap (fun n =>
      if (t.get_cell n).pathable_mask = 0 then some n.1 else none) ∧
    (orthoFlowScan t f nrm c ns st).obsY = st.obsY ++ ns.filterMap (fun n =>
      if (t.get_cell n).pathable_mask = 0 then some n.2 else none) := by
  intro ns
  induction ns with
  | nil => intro st; simp [orthoFlowScan]
  | cons n ns ih =>
      intro st
      simp only [orthoFlowScan]
      by_cases h1 : (t.get_cell n).pathable_mask = 0
      · rw [if_pos h1]
        obtain ⟨ihx, ihy⟩ := ih { st with obsX := st.obsX ++ [n.1], obsY := st.obsY ++ [n.2] }
        rw [ihx, ihy]
        simp [h1]
      · rw [if_neg h1]
        obtain ⟨ihx, ihy⟩ := ih (flowAccum f nrm c n st)
        rw [ihx, ihy, flowAccum_obsX, flowAccum_obsY]
        simp [h1]

theorem diagFlowScan_obs_mono (t : TerrainMap) (f : IField) (nrm : Vec → Vec) (c : Cell) :
    ∀ (ns : List Cell) (st : FlowScanSt),
    ∃ ext : List Int, (diagFlowScan t f nrm c ns st).obsX = st.obsX ++ ext := by
  intro ns
  induction ns with
  | nil => intro st; exact ⟨[], by simp [diagFlowScan]⟩
  | cons n ns ih =>
      intro st
      simp only [diagFlowScan]
      by_cases h1 : n.1 ∈ st.obsX ∨ n.2 ∈ st.obsY
      · rw [if_pos h1]
        exact ih st
      · rw [if_neg h1]
        by_cases h2 : (t.get_cell n).pathable_mask = 0
        · rw [if_pos h2]
          obtain ⟨ext, hext⟩ := ih { st with obsX := st.obsX ++ [-1], obsY := st.obsY ++ [-1] }
          exact ⟨[-1] ++ ext, by rw [hext]; simp⟩
        · rw [if_neg h2]
          obtain ⟨ext, hext⟩ := ih (flowAccum f nrm c n st)
          rw [flowAccum_obsX] at hext
          exact ⟨ext, hext⟩

theorem diagFlowScan_obs_nil_iff (t : TerrainMap) (f : IField) (nrm : Vec → Vec)
    (c : Cell) :
    ∀ (ns : List Cell) (st : FlowScanSt), st.obsX = [] → st.obsY = [] →
    ((diagFlowScan t f nrm c ns st).obsX = [] ↔ ∀ n ∈ ns, pathable t n) := by
  intro ns
  induction ns with
  | nil => intro st hx _; simp [diagFlowScan, hx]
  | cons n ns ih =>
      intro st hx hy
      simp only [diagFlowScan]
      rw [if_neg (by rw [hx, hy]; simp)]
      by_cases h1 : (t.get_cell n).pathable_mask = 0
      · rw [if_pos h1]
        constructor
        · intro hnil
          obtain ⟨ext, hext⟩ := diagFlowScan_obs_mono t f nrm c ns
            { st with obsX := st.obsX ++ [-1], obsY := st.obsY ++ [-1] }
          rw [hext] at hnil
          simp at hnil
        · intro hall
          exact absurd h1 (hall n (List.mem_cons_self n ns))
      · rw [if_neg h1]
        rw [ih (flowAccum f nrm c n st) (by rw [flowAccum_obsX]; exact hx)
          (by rw [flowAccum_obsY]; exact hy)]
        constructor
        · intro hall m hm
          rcases List.mem_cons.1 hm with hmn | hm2
          · rw [hmn]; exact h1
          · exact hall m hm2
        · intro hall m hm
          exact hall m (List.mem_cons_of_mem n hm)

theorem cornerObstaclesX_nil_iff (t : TerrainMap) (c : Cell) :
    cornerObstaclesX t c = [] ↔
      ∀ n ∈ get_orthognal_neighbor_cells c t.max_bounds, pathable t n := by
  unfold cornerObstaclesX
  rw [List.filterMap_eq_nil_iff]
  constructor
  · intro hall n hn hmask
    have := hall n hn
    rw [if_pos hmask] at this
    cases this
  · intro hall n hn
    rw [if_neg (hall n hn)]

theorem cornerObstaclesY_nil_iff (t : TerrainMap) (c : Cell) :
    cornerObstaclesY t c = [] ↔
      ∀ n ∈ get_orthognal_neighbor_cells c t.max_bounds, pathable t n := by
  unfold cornerObstaclesY
  rw [List.filterMap_eq_nil_iff]
  constructor
  · intro hall n hn hmask
    have := hall n hn
    rw [if_pos hmask] at this
    cases this
  · intro hall n hn
    rw [if_neg (hall n hn)]

theorem orthoFlowScan_minV_le (t : TerrainMap) (f : IField) (nrm : Vec → Vec)
    (c : Cell) : ∀ (ns : List Cell) (st : FlowScanSt),
    (orthoFlowScan t f nrm c ns st).minV ≤ st.minV := by
  intro ns
  induction ns with
  | nil => intro st; simp [orthoFlowScan]
  | cons n ns ih =>
      intro st
      simp only [orthoFlowScan]
      by_cases h1 : (t.get_cell n).pathable_mask = 0
      · rw [if_pos h1]
        exact ih _
      · rw [if_neg h1]
        exact (ih _).trans (flowAccum_minV_le f nrm c n st)

theorem diagFlowScan_minV_le (t : TerrainMap) (f : IField) (nrm : Vec → Vec)
    (c : Cell) : ∀ (ns : List Cell) (st : FlowScanSt),
    (diagFlowScan t f nrm c ns st).minV ≤ st.minV := by
  intro ns
  induction ns with
  | nil => intro st; simp [diagFlowScan]
  | cons n ns ih =>
      intro st
      simp only [diagFlowScan]
      by_cases h1 : n.1 ∈ st.obsX ∨ n.2 ∈ st.obsY
      · rw [if_pos h1]
        exact ih _
      · rw [if_neg h1]
        by_cases h2 : (t.get_cell n).pathable_mask = 0
        · rw [if_pos h2]
          exact ih _
        · rw [if_neg h2]
          exact (ih _).trans (flowAccum_minV_le f nrm c n st)

theorem orthoFlowScan_minV_bound (t : TerrainMap) (f : IField) (nrm : Vec → Vec)
    (c : Cell) : ∀ (ns : List Cell) (st : FlowScanSt) (n : Cell), n ∈ ns →
    pathable t n →
    (orthoFlowScan t f nrm c ns st).minV ≤ max (readVal f n) (1 / 100) := by
  intro ns
  induction ns with
  | nil => intro st n hn; cases hn
  | cons m ns ih =>
      intro st n hn hpa
      by_cases hn2 : n ∈ ns
      · simp only [orthoFlowScan]
        by_cases h1 : (t.get_cell m).pathable_mask = 0
        · rw [if_pos h1]
          exact ih _ n hn2 hpa
        · rw [if_neg h1]
          exact ih _ n hn2 hpa
      · have hnm : n = m := by
          rcases List.mem_cons.1 hn with h | h
          · exact h
          · exact absurd h hn2
        subst hnm
        simp only [orthoFlowScan]
        rw [if_neg hpa]
        exact (orthoFlowScan_minV_le t f nrm c ns _).trans
          (flowAccum_minV_bound f nrm c n st)

/-- Claim C6 (amended): the ring-by-ring expansion of gradient extraction is
entered if and only if no obstacle at all was found at distance 1 — that is,
no impassable orthogonal neighbor AND no impassable, non-corner-skipped
diagonal neighbor (the source pushes `-1` markers for impassable diagonals
into the same obstacle list, so diagonal obstacles also suppress the ring
expansion, beyond what the claim states).  When any distance-1 obstacle was
found, the accumulated weighted sum is discarded and the stored vector points
toward the minimum-integration neighbor of the scan, whose recorded value is
a lower bound of every pathable orthogonal neighbor's clamped value. -/
theorem C6_amended (t : TerrainMap) (f : IField) (nrm : Vec → Vec) (c : Cell)
    (h : 1 / 100 < readVal f c) :
    ((flowScanAll t f nrm c).obsX ≠ [] ↔ obstacleAtDistOne t c) ∧
    (obstacleAtDistOne t c →
      flowCellVec t f nrm c
        = some (nrm (nrm (intVec (flowScanAll t f nrm c).minN c))) ∧
      ∀ n ∈ get_orthognal_neighbor_cells c t.max_bounds, pathable t n →
        (flowScanAll t f nrm c).minV ≤ max (readVal f n) (1 / 100)) ∧
    (¬ obstacleAtDistOne t c →
      flowCellVec t f nrm c =
        some (nrm (convLoop t f nrm c 1 2 2 (flowScanAll t f nrm c).flow))) := by
  have hobs := orthoFlowScan_obs t f nrm c
    (get_orthognal_neighbor_cells c t.max_bounds) flowScanInit
  have hx1 : (orthoFlowScan t f nrm c
      (get_orthognal_neighbor_cells c t.max_bounds) flowScanInit).obsX
      = cornerObstaclesX t c := by
    rw [hobs.1]
    rfl
  have hy1 : (orthoFlowScan t f nrm c
      (get_orthognal_neighbor_cells c t.max_bounds) flowScanInit).obsY
      = cornerObstaclesY t c := by
    rw [hobs.2]
    rfl
  have hiff : (flowScanAll t f nrm c).obsX ≠ [] ↔ obstacleAtDistOne t c := by
    unfold flowScanAll
    by_cases hcx : cornerObstaclesX t c = []
    · have hallortho := (cornerObstaclesX_nil_iff t c).1 hcx
      have hcy : cornerObstaclesY t c = [] := (cornerObstaclesY_nil_iff t c).2 hallortho
      rw [Ne, diagFlowScan_obs_nil_iff t f nrm c _ _ (hx1.trans hcx) (hy1.trans hcy)]
      unfold obstacleAtDistOne
      constructor
      · intro hnall
        right
        rcases not_forall.1 hnall with ⟨n, hn⟩
        rcases Classical.not_imp.1 hn with ⟨hmem, hnp⟩
        refine ⟨n, hmem, not_not.1 hnp, ?_, ?_⟩
        · rw [hcx]
          exact List.not_mem_nil _
        · rw [hcy]
          exact List.not_mem_nil _
      · rintro (⟨n, hn, hmask⟩ | ⟨n, hn, hmask, -, -⟩) hall
        · exact (hallortho n hn) hmask
        · exact (hall n hn) hmask
    · constructor
      · intro _
        left
        have hne : ¬ ∀ n ∈ get_orthognal_neighbor_cells c t.max_bounds, pathable t n :=
          fun hall => hcx ((cornerObstaclesX_nil_iff t c).2 hall)
        rcases not_forall.1 hne with ⟨n, hn⟩
        rcases Classical.not_imp.1 hn with ⟨hmem, hnp⟩
        exact ⟨n, hmem, not_not.1 hnp⟩
      · intro _
        obtain ⟨ext, hext⟩ := diagFlowScan_obs_mono t f nrm c
          (get_diagonal_neighbor_cells c t.max_bounds)
          (orthoFlowScan t f nrm c (get_orthognal_neighbor_cells c t.max_bounds)
            flowScanInit)
        rw [hext, hx1]
        intro hnil
        exact hcx (List.append_eq_nil.1 hnil).1
  refine ⟨hiff, fun hobst => ⟨?_, fun n hn hpa => ?_⟩, fun hnobst => ?_⟩
  · unfold flowCellVec
    rw [if_neg (not_le.2 h)]
    dsimp only
    rw [if_neg (hiff.2 hobst)]
  · exact (diagFlowScan_minV_le t f nrm c _ _).trans
      (orthoFlowScan_minV_bound t f nrm c _ _ n hn hpa)
  · unfold flowCellVec
    rw [if_neg (not_le.2 h)]
    dsimp only
    rw [if_pos (not_ne_iff.1 (fun hne => hnobst (hiff.1 hne)))]

/-- Witness for `C6_amended` at the corner-blocked fixture, cell `(1, 1)`. -/
theorem C6_amended_witness :
    1 / 100 < readVal fieldCorner (1, 1) ∧
    (((flowScanAll terrainCornerBlocked fieldCorner id (1, 1)).obsX ≠ [] ↔
        obstacleAtDistOne terrainCornerBlocked (1, 1)) ∧
      (obstacleAtDistOne terrainCornerBlocked (1, 1) →
        flowCellVec terrainCornerBlocked fieldCorner id (1, 1)
          = some (id (id (intVec
              (flowScanAll terrainCornerBlocked fieldCorner id (1, 1)).minN (1, 1)))) ∧
        ∀ n ∈ get_orthognal_neighbor_cells (1, 1) terrainCornerBlocked.max_bounds,
          pathable terrainCornerBlocked n →
          (flowScanAll terrainCornerBlocked fieldCorner id (1, 1)).minV
            ≤ max (readVal fieldCorner n) (1 / 100)) ∧
      (¬ obstacleAtDistOne terrainCornerBlocked (1, 1) →
        flowCellVec terrainCornerBlocked fieldCorner id (1, 1) =
          some (id (convLoop terrainCornerBlocked fieldCorner id (1, 1) 1 2 2
            (flowScanAll terrainCornerBlocked fieldCorner id (1, 1)).flow)))) :=
  ⟨by with_unfolding_all decide,
    C6_amended terrainCornerBlocked fieldCorner id (1, 1) (by with_unfolding_all decide)⟩

set_option maxRecDepth 4000 in
/-- Claim C6, counterexample: at cell `(1, 1)` of the corner-blocked fixture
every orthogonal neighbor is pathable, yet (because the impassable diagonal
`(0, 0)` pushes the `-1` obstacle markers) the source takes the fallback and
stores the direction to the minimum neighbor, `(-1, 0)`; an implementation of
the claim as written (ring expansion entered whenever no ORTHOGONAL obstacle
was found, `flowCellVecSpecC6`) stores the weighted sum `(1000/3, 1000/3)`
instead.  The two disagree, refuting the claimed iff. -/
theorem C6_counterexample :
    (∀ n ∈ get_orthognal_neighbor_cells (1, 1) terrainCornerBlocked.max_bounds,
      pathable terrainCornerBlocked n) ∧
    flowCellVec terrainCornerBlocked fieldCorner id (1, 1) = some (-1, 0) ∧
    flowCellVecSpecC6 terrainCornerBlocked fieldCorner id (1, 1)
      = some (1000 / 3, 1000 / 3) ∧
    flowCellVec terrainCornerBlocked fieldCorner id (1, 1) ≠
      flowCellVecSpecC6 terrainCornerBlocked fieldCorner id (1, 1) := by
  refine ⟨?_, ?_, ?_, ?_⟩ <;> with_unfolding_all decide

/-! ### Claims C4 and C10: neighbor-cache edge bookkeeping -/

theorem tierGet_cons (k1 : Nat) (l : List NbrEntry) (rest : Tier) (k : Nat) :
    tierGet ((k1, l) :: rest) k = if k1 = k then some l else tierGet rest k := by
  by_cases h : k1 = k
  · rw [if_pos h]
    unfold tierGet
    rw [List.find?_cons_of_pos _ (by simp [h])]
  · rw [if_neg h]
    unfold tierGet
    rw [List.find?_cons_of_neg _ (by simp [h])]

theorem tierEntries_cons (k1 : Nat) (l : List NbrEntry) (rest : Tier) (k : Nat) :
    tierEntries ((k1, l) :: rest) k = if k1 = k then l else tierEntries rest k := by
  unfold tierEntries
  rw [tierGet_cons]
  split_ifs <;> rfl

theorem tierEntries_tierInsert (k : Nat) (e : NbrEntry) (tier : Tier) (x : Nat) :
    tierEntries (tierInsert k e tier) x =
      if x = k then tierEntries tier x ++ [e] else tierEntries tier x := by
  induction tier with
  | nil =>
      show tierEntries [(k, [e])] x = _
      rw [tierEntries_cons]
      by_cases h : x = k
      · rw [if_pos h.symm, if_pos h]
        show [e] = tierEntries [] x ++ [e]
        rfl
      · rw [if_neg (fun hc => h hc.symm), if_neg h]
  | cons hd rest ih =>
      obtain ⟨k1, l1⟩ := hd
      show tierEntries
        (if k1 = k then (k1, l1 ++ [e]) :: rest else (k1, l1) :: tierInsert k e rest) x = _
      by_cases h1 : k1 = k
      · rw [if_pos h1]
        subst h1
        rw [tierEntries_cons, tierEntries_cons]
        by_cases h2 : x = k1
        · rw [if_pos h2.symm, if_pos h2, if_pos h2.symm]
        · rw [if_neg (fun hc => h2 hc.symm), if_neg h2,
            if_neg (fun hc => h2 hc.symm)]
      · rw [if_neg h1, tierEntries_cons, tierEntries_cons]
        by_cases h2 : k1 = x
        · have hxk : ¬x = k := fun hc => h1 (h2.trans hc)
          rw [if_pos h2, if_neg hxk, if_pos h2]
        · rw [if_neg h2, if_neg h2, ih]

theorem countP_tierInsert (k : Nat) (e : NbrEntry) (tier : Tier) (x : Nat)
    (p : NbrEntry → Bool) :
    (tierEntries (tierInsert k e tier) x).countP p =
      (tierEntries tier x).countP p + (if x = k ∧ p e = true then 1 else 0) := by
  rw [tierEntries_tierInsert]
  by_cases h : x = k
  · rw [if_pos h, List.countP_append]
    by_cases hp : p e = true
    · simp [hp, h]
    · simp [hp, h]
  · simp [h]

theorem addEdges_length (a b : Nat) (d : ℚ) :
    ∀ (rs : List ℚ) (cs : Cache), (addEdges a b d rs cs).length = cs.length := by
  intro rs
  induction rs with
  | nil => intro cs; rfl
  | cons rad rs ih =>
      intro cs
      cases cs with
      | nil => rfl
      | cons t ts => simp [addEdges, ih]

theorem countP_addEdges (a b : Nat) (d : ℚ) (p : NbrEntry → Bool) :
    ∀ (rs : List ℚ) (cs : Cache) (i : Nat) (x : Nat),
    (cacheEntries (addEdges a b d rs cs) i x).countP p =
      (cacheEntries cs i x).countP p +
      (if (∃ r, rs.get? i = some r ∧ d ≤ r * r) ∧ i < cs.length then
        (if x = a ∧ p (b, d) = true then 1 else 0) +
        (if x = b ∧ p (a, d) = true then 1 else 0)
      else 0) := by
  intro rs
  induction rs with
  | nil =>
      intro cs i x
      have : addEdges a b d [] cs = cs := rfl
      rw [this, if_neg]
      · rfl
      · rintro ⟨⟨r, hr, -⟩, -⟩
        cases hr
  | cons rad rs ih =>
      intro cs i x
      cases cs with
      | nil =>
          have : addEdges a b d (rad :: rs) [] = [] := rfl
          rw [this, if_neg]
          · rfl
          · rintro ⟨-, hlt⟩
            simp at hlt
      | cons t ts =>
          cases i with
          | zero =>
              show (tierEntries (if d ≤ rad * rad
                  then tierInsert b (a, d) (tierInsert a (b, d) t) else t) x).countP p = _
              by_cases hq : d ≤ rad * rad
              · have hget : (rad :: rs).get? 0 = some rad := rfl
                have hcond : (∃ r, (rad :: rs).get? 0 = some r ∧ d ≤ r * r) ∧
                    0 < (t :: ts).length := ⟨⟨rad, hget, hq⟩, by simp⟩
                rw [if_pos hq, countP_tierInsert, countP_tierInsert, if_pos hcond]
                show _ = (tierEntries t x).countP p + _
                rw [Nat.add_assoc]
              · rw [if_neg hq, if_neg]
                · rfl
                · rintro ⟨⟨r, hr, hle⟩, -⟩
                  injection hr with he
                  rw [← he] at hle
                  exact hq hle
          | succ i =>
              show (cacheEntries (addEdges a b d rs ts) i x).countP p = _
              rw [ih ts i x]
              congr 1
              by_cases hq : (∃ r, rs.get? i = some r ∧ d ≤ r * r) ∧ i < ts.length
              · have hc2 : (∃ r, (rad :: rs).get? (i + 1) = some r ∧ d ≤ r * r) ∧
                    i + 1 < (t :: ts).length := ⟨hq.1, Nat.succ_lt_succ hq.2⟩
                rw [if_pos hq, if_pos hc2]
              · have hc2 : ¬((∃ r, (rad :: rs).get? (i + 1) = some r ∧ d ≤ r * r) ∧
                    i + 1 < (t :: ts).length) :=
                  fun h2 => hq ⟨h2.1, Nat.lt_of_succ_lt_succ h2.2⟩
                rw [if_neg hq, if_neg hc2]

theorem cacheEntries_addEdges (a b : Nat) (d : ℚ) :
    ∀ (rs : List ℚ) (cs : Cache) (i x : Nat),
    cacheEntries (addEdges a b d rs cs) i x =
      cacheEntries cs i x ++
      (if (∃ r, rs.get? i = some r ∧ d ≤ r * r) ∧ i < cs.length then
        (if x = a then [((b : Nat), d)] else []) ++
        (if x = b then [((a : Nat), d)] else [])
      else []) := by
  intro rs
  induction rs with
  | nil =>
      intro cs i x
      rw [show addEdges a b d [] cs = cs from rfl, if_neg]
      · rw [List.append_nil]
      · rintro ⟨⟨r, hr, -⟩, -⟩
        cases hr
  | cons rad rs ih =>
      intro cs i x
      cases cs with
      | nil =>
          rw [show addEdges a b d (rad :: rs) [] = [] from rfl, if_neg]
          · rw [List.append_nil]
          · rintro ⟨-, hlt⟩
            simp at hlt
      | cons t ts =>
          cases i with
          | zero =>
              show tierEntries (if d ≤ rad * rad
                  then tierInsert b (a, d) (tierInsert a (b, d) t) else t) x = _
              by_cases hq : d ≤ rad * rad
              · have hget : (rad :: rs).get? 0 = some rad := rfl
                have hcond : (∃ r, (rad :: rs).get? 0 = some r ∧ d ≤ r * r) ∧
                    0 < (t :: ts).length := ⟨⟨rad, hget, hq⟩, by simp⟩
                rw [if_pos hq, tierEntries_tierInsert, tierEntries_tierInsert,
                  if_pos hcond]
                show _ = tierEntries t x ++ _
                by_cases ha : x = a
                · by_cases hb : x = b
                  · have hab : a = b := ha.symm.trans hb
                    simp [ha, hb, hab]
                  · have hab : ¬a = b := fun h2 => hb (ha.trans h2)
                    simp [ha, hb, hab]
                · by_cases hb : x = b
                  · have hab : ¬b = a := fun h2 => ha (hb.trans h2)
                    simp [ha, hb, hab]
                  · simp [ha, hb]
              · have hcond : ¬((∃ r, (rad :: rs).get? 0 = some r ∧ d ≤ r * r) ∧
                    0 < (t :: ts).length) := by
                  rintro ⟨⟨r, hr, hle⟩, -⟩
                  injection hr with he
                  rw [← he] at hle
                  exact hq hle
                rw [if_neg hq, if_neg hcond, List.append_nil]
                rfl
          | succ i =>
              show cacheEntries (addEdges a b d rs ts) i x = _
              rw [ih ts i x,
                show cacheEntries (t :: ts) (i + 1) x = cacheEntries ts i x from rfl]
              congr 1
              by_cases hq : (∃ r, rs.get? i = some r ∧ d ≤ r * r) ∧ i < ts.length
              · have hc2 : (∃ r, (rad :: rs).get? (i + 1) = some r ∧ d ≤ r * r) ∧
                    i + 1 < (t :: ts).length := ⟨hq.1, Nat.succ_lt_succ hq.2⟩
                rw [if_pos hq, if_pos hc2]
              · have hc2 : ¬((∃ r, (rad :: rs).get? (i + 1) = some r ∧ d ≤ r * r) ∧
                    i + 1 < (t :: ts).length) :=
                  fun h2 => hq ⟨h2.1, Nat.lt_of_succ_lt_succ h2.2⟩
                rw [if_neg hq, if_neg hc2]

theorem mem_addEdges {a b : Nat} {d : ℚ} {rs : List ℚ} {cs : Cache} {i x : Nat}
    {e : NbrEntry} (h : e ∈ cacheEntries (addEdges a b d rs cs) i x) :
    e ∈ cacheEntries cs i x ∨
      ((∃ r, rs.get? i = some r ∧ d ≤ r * r) ∧ (e = (b, d) ∨ e = (a, d))) := by
  rw [cacheEntries_addEdges] at h
  rcases List.mem_append.1 h with h1 | h2
  · exact Or.inl h1
  · by_cases hq : (∃ r, rs.get? i = some r ∧ d ≤ r * r) ∧ i < cs.length
    · rw [if_pos hq] at h2
      rcases List.mem_append.1 h2 with h3 | h3
      · refine Or.inr ⟨hq.1, ?_⟩
        by_cases ha : x = a
        · rw [if_pos ha] at h3
          exact Or.inl (List.mem_singleton.1 h3)
        · rw [if_neg ha] at h3
          exact absurd h3 (List.not_mem_nil e)
      · refine Or.inr ⟨hq.1, ?_⟩
        by_cases hb : x = b
        · rw [if_pos hb] at h3
          exact Or.inr (List.mem_singleton.1 h3)
        · rw [if_neg hb] at h3
          exact absurd h3 (List.not_mem_nil e)
    · rw [if_neg hq] at h2
      exact absurd h2 (List.not_mem_nil e)

theorem pairCount_addEdges (a b : Nat) (d : ℚ) (rs : List ℚ) (cs : Cache)
    (i x y : Nat) :
    pairCount (addEdges a b d rs cs) i x y =
      pairCount cs i x y +
      (if (∃ r, rs.get? i = some r ∧ d ≤ r * r) ∧ i < cs.length then
        (if x = a ∧ b = y then 1 else 0) + (if x = b ∧ a = y then 1 else 0)
      else 0) := by
  unfold pairCount
  simp only [countP_addEdges, decide_eq_true_eq]

theorem entryCount_addEdges (a b : Nat) (d : ℚ) (rs : List ℚ) (cs : Cache)
    (i x y : Nat) (d2 : ℚ) :
    entryCount (addEdges a b d rs cs) i x y d2 =
      entryCount cs i x y d2 +
      (if (∃ r, rs.get? i = some r ∧ d ≤ r * r) ∧ i < cs.length then
        (if x = a ∧ b = y ∧ d = d2 then 1 else 0) +
        (if x = b ∧ a = y ∧ d = d2 then 1 else 0)
      else 0) := by
  unfold entryCount
  simp only [countP_addEdges, decide_eq_true_eq, Prod.mk.injEq]

theorem SymCache_addEdges {cs : Cache} (h : SymCache cs) (a b : Nat) (d : ℚ)
    (rs : List ℚ) : SymCache (addEdges a b d rs cs) := by
  intro i x y d2
  rw [entryCount_addEdges, entryCount_addEdges, h i x y d2]
  congr 1
  by_cases hq : (∃ r, rs.get? i = some r ∧ d ≤ r * r) ∧ i < cs.length
  · rw [if_pos hq, if_pos hq]
    have h1 : (x = a ∧ b = y ∧ d = d2) ↔ (y = b ∧ a = x ∧ d = d2) :=
      ⟨fun ⟨u, v, w⟩ => ⟨v.symm, u.symm, w⟩, fun ⟨u, v, w⟩ => ⟨v.symm, u.symm, w⟩⟩
    have h2 : (x = b ∧ a = y ∧ d = d2) ↔ (y = a ∧ b = x ∧ d = d2) :=
      ⟨fun ⟨u, v, w⟩ => ⟨v.symm, u.symm, w⟩, fun ⟨u, v, w⟩ => ⟨v.symm, u.symm, w⟩⟩
    have e1 : (if x = a ∧ b = y ∧ d = d2 then 1 else 0) =
        (if y = b ∧ a = x ∧ d = d2 then 1 else 0) := by
      by_cases hc : x = a ∧ b = y ∧ d = d2
      · rw [if_pos hc, if_pos (h1.mp hc)]
      · rw [if_neg hc, if_neg (fun hc2 => hc (h1.mpr hc2))]
    have e2 : (if x = b ∧ a = y ∧ d = d2 then 1 else 0) =
        (if y = a ∧ b = x ∧ d = d2 then 1 else 0) := by
      by_cases hc : x = b ∧ a = y ∧ d = d2
      · rw [if_pos hc, if_pos (h2.mp hc)]
      · rw [if_neg hc, if_neg (fun hc2 => hc (h2.mpr hc2))]
    rw [e1, e2]
    exact Nat.add_comm _ _
  · rw [if_neg hq, if_neg hq]

theorem NoSelfEdges_addEdges {cs : Cache} (h : NoSelfEdges cs) {a b : Nat}
    (hab : a ≠ b) (d : ℚ) (rs : List ℚ) : NoSelfEdges (addEdges a b d rs cs) := by
  intro i x
  rw [pairCount_addEdges, h i x]
  by_cases hq : (∃ r, rs.get? i = some r ∧ d ≤ r * r) ∧ i < cs.length
  · have h1 : ¬(x = a ∧ b = x) := fun ⟨u, v⟩ => hab (u.symm.trans v.symm)
    have h2 : ¬(x = b ∧ a = x) := fun ⟨u, v⟩ => hab (v.trans u)
    rw [if_pos hq, if_neg h1, if_neg h2]
  · rw [if_neg hq]

theorem BoundOK_addEdges {rs : List ℚ} {cs : Cache} (h : BoundOK rs cs)
    {d : ℚ} (hd : 0 ≤ d) (a b : Nat) : BoundOK rs (addEdges a b d rs cs) := by
  intro i r k e hr hmem
  rcases mem_addEdges hmem with h1 | ⟨⟨r2, hr2, hle⟩, h2⟩
  · exact h i r k e hr h1
  · have hrr : r2 = r := by
      rw [hr] at hr2
      injection hr2 with he
      exact he.symm
    rcases h2 with h2 | h2 <;> rw [h2] <;> exact ⟨hd, hrr ▸ hle⟩

theorem lookupAgent_id {agents : List NAgent} {e : Nat} {b : NAgent}
    (h : lookupAgent agents e = some b) : b.id = e := by
  unfold lookupAgent at h
  simpa using List.find?_some h

theorem scanIds_length (agents : List NAgent) (radii : List ℚ) (a : NAgent) :
    ∀ (es : List Nat) (checked : List Nat) (cache : Cache),
    ((scanIds agents radii a es checked cache).2).length = cache.length := by
  intro es
  induction es with
  | nil => intro checked cache; rfl
  | cons e es ih =>
      intro checked cache
      simp only [scanIds]
      by_cases h : e ∈ checked
      · rw [if_pos h]
        exact ih checked cache
      · rw [if_neg h]
        cases hl : lookupAgent agents e with
        | none => exact ih _ _
        | some b => rw [ih, addEdges_length]

theorem scanCells_length (agents : List NAgent) (radii : List ℚ) (a : NAgent)
    (table : HashTable) :
    ∀ (cells : List Cell) (checked : List Nat) (cache : Cache),
    ((scanCells agents radii a table cells checked cache).2).length = cache.length := by
  intro cells
  induction cells with
  | nil => intro checked cache; rfl
  | cons c cs ih =>
      intro checked cache
      simp only [scanCells]
      rw [ih, scanIds_length]

theorem buildLoop_length (agents : List NAgent) (radii : List ℚ)
    (table : HashTable) :
    ∀ (rest : List NAgent) (checkedEnts : List Nat) (cache : Cache),
    (buildLoop agents radii table rest checkedEnts cache).length = cache.length := by
  intro rest
  induction rest with
  | nil => intro checkedEnts cache; rfl
  | cons a rest ih =>
      intro checkedEnts cache
      simp only [buildLoop]
      cases haw : a.aware with
      | none => exact ih _ _
      | some aw => rw [ih, scanCells_length]

theorem emptyCache_length (radii : List ℚ) : (emptyCache radii).length = radii.length := by
  simp [emptyCache]

theorem build_cache_length (agents : List NAgent) (radii : List ℚ) :
    (build_spatial_neighbors_cache agents radii).length = radii.length := by
  unfold build_spatial_neighbors_cache
  rw [buildLoop_length, emptyCache_length]

theorem cacheEntries_empty (radii : List ℚ) (i k : Nat) :
    cacheEntries (emptyCache radii) i k = [] := by
  unfold cacheEntries emptyCache
  rw [List.get?_map]
  cases radii.get? i <;> rfl

theorem scanIds_checked_sub (agents : List NAgent) (radii : List ℚ) (a : NAgent) :
    ∀ (es checked : List Nat) (cache : Cache),
    checked ⊆ (scanIds agents radii a es checked cache).1 := by
  intro es
  induction es with
  | nil => intro checked cache x hx; exact hx
  | cons e es ih =>
      intro checked cache
      simp only [scanIds]
      by_cases h : e ∈ checked
      · rw [if_pos h]
        exact ih checked cache
      · rw [if_neg h]
        cases hl : lookupAgent agents e with
        | none => exact fun x hx => ih _ _ (List.mem_cons_of_mem e hx)
        | some b => exact fun x hx => ih _ _ (List.mem_cons_of_mem e hx)

theorem scanIds_untouched (agents : List NAgent) (radii : List ℚ) (a : NAgent) :
    ∀ (es checked : List Nat) (cache : Cache) (i x y : Nat),
    x ≠ a.id → y ≠ a.id →
    pairCount (scanIds agents radii a es checked cache).2 i x y =
      pairCount cache i x y := by
  intro es
  induction es with
  | nil => intro _ _ _ _ _ _ _; rfl
  | cons e es ih =>
      intro checked cache i x y hx hy
      simp only [scanIds]
      by_cases h : e ∈ checked
      · rw [if_pos h]
        exact ih checked cache i x y hx hy
      · rw [if_neg h]
        cases hl : lookupAgent agents e with
        | none => exact ih _ _ i x y hx hy
        | some b =>
            rw [ih _ _ i x y hx hy, pairCount_addEdges]
            have h1 : ¬(x = a.id ∧ b.id = y) := fun hc => hx hc.1
            have h2 : ¬(x = b.id ∧ a.id = y) := fun hc => hy hc.2.symm
            split_ifs <;> omega

theorem scanIds_checked_counts (agents : List NAgent) (radii : List ℚ) (a : NAgent) :
    ∀ (es checked : List Nat) (cache : Cache) (i y : Nat),
    a.id ∈ checked → y ∈ checked →
    pairCount (scanIds agents radii a es checked cache).2 i a.id y =
      pairCount cache i a.id y ∧
    pairCount (scanIds agents radii a es checked cache).2 i y a.id =
      pairCount cache i y a.id := by
  intro es
  induction es with
  | nil => intro _ _ _ _ _ _; exact ⟨rfl, rfl⟩
  | cons e es ih =>
      intro checked cache i y hA hy
      simp only [scanIds]
      by_cases h : e ∈ checked
      · rw [if_pos h]
        exact ih checked cache i y hA hy
      · rw [if_neg h]
        cases hl : lookupAgent agents e with
        | none =>
            exact ih _ _ i y (List.mem_cons_of_mem _ hA) (List.mem_cons_of_mem _ hy)
        | some b =>
            have hbid : b.id = e := lookupAgent_id hl
            have hbA : ¬(a.id = b.id) := by
              intro hc
              apply h
              rw [← hbid, ← hc]
              exact hA
            have hby : ¬(y = b.id) := by
              intro hc
              apply h
              rw [← hbid, ← hc]
              exact hy
            have hrec := ih (e :: checked) (addEdges a.id b.id (pairDsq a b) radii cache)
              i y (List.mem_cons_of_mem e hA) (List.mem_cons_of_mem e hy)
            refine ⟨?_, ?_⟩
            · rw [hrec.1, pairCount_addEdges]
              have h1 : ¬(a.id = a.id ∧ b.id = y) := fun hc => hby hc.2.symm
              have h2 : ¬(a.id = b.id ∧ a.id = y) := fun hc => hbA hc.1
              split_ifs <;> omega
            · rw [hrec.2, pairCount_addEdges]
              have h1 : ¬(y = a.id ∧ b.id = a.id) := fun hc => hbA hc.2.symm
              have h2 : ¬(y = b.id ∧ a.id = a.id) := fun hc => hby hc.1
              split_ifs <;> omega

theorem scanIds_changed_mem (agents : List NAgent) (radii : List ℚ) (a : NAgent) :
    ∀ (es checked : List Nat) (cache : Cache) (i y : Nat),
    a.id ∈ checked →
    (pairCount (scanIds agents radii a es checked cache).2 i a.id y ≠
        pairCount cache i a.id y ∨
      pairCount (scanIds agents radii a es checked cache).2 i y a.id ≠
        pairCount cache i y a.id) →
    y ∈ (scanIds agents radii a es checked cache).1 := by
  intro es
  induction es with
  | nil =>
      intro _ _ _ _ _ hch
      rcases hch with hch | hch <;> exact absurd rfl hch
  | cons e es ih =>
      intro checked cache i y hA hch
      simp only [scanIds] at hch ⊢
      by_cases h : e ∈ checked
      · rw [if_pos h] at hch ⊢
        exact ih checked cache i y hA hch
      · rw [if_neg h] at hch ⊢
        cases hl : lookupAgent agents e with
        | none =>
            rw [hl] at hch
            exact ih _ _ i y (List.mem_cons_of_mem e hA) hch
        | some b =>
            rw [hl] at hch
            have hbid : b.id = e := lookupAgent_id hl
            have hbA : ¬(a.id = b.id) := by
              intro hc
              apply h
              rw [← hbid, ← hc]
              exact hA
            by_cases hye : y = e
            · exact scanIds_checked_sub agents radii a es _ _
                (hye ▸ List.mem_cons_self e checked)
            · have hby : ¬(b.id = y) := fun hc => hye (hc.symm.trans hbid)
              have e1 : pairCount (addEdges a.id b.id (pairDsq a b) radii cache) i a.id y =
                  pairCount cache i a.id y := by
                rw [pairCount_addEdges]
                have h1 : ¬(a.id = a.id ∧ b.id = y) := fun hc => hby hc.2
                have h2 : ¬(a.id = b.id ∧ a.id = y) := fun hc => hbA hc.1
                split_ifs <;> omega
              have e2 : pairCount (addEdges a.id b.id (pairDsq a b) radii cache) i y a.id =
                  pairCount cache i y a.id := by
                rw [pairCount_addEdges]
                have h1 : ¬(y = a.id ∧ b.id = a.id) := fun hc => hbA hc.2.symm
                have h2 : ¬(y = b.id ∧ a.id = a.id) := fun hc => hye (hc.1.trans hbid)
                split_ifs <;> omega
              rw [← e1, ← e2] at hch
              exact ih _ _ i y (List.mem_cons_of_mem _ hA) hch

theorem scanIds_add_le (agents : List NAgent) (radii : List ℚ) (a : NAgent) :
    ∀ (es checked : List Nat) (cache : Cache) (i y : Nat),
    a.id ∈ checked →
    pairCount (scanIds agents radii a es checked cache).2 i a.id y ≤
      pairCount cache i a.id y + 1 ∧
    pairCount (scanIds agents radii a es checked cache).2 i y a.id ≤
      pairCount cache i y a.id + 1 := by
  intro es
  induction es with
  | nil => intro _ _ _ _ _; exact ⟨Nat.le_succ _, Nat.le_succ _⟩
  | cons e es ih =>
      intro checked cache i y hA
      simp only [scanIds]
      by_cases h : e ∈ checked
      · rw [if_pos h]
        exact ih checked cache i y hA
      · rw [if_neg h]
        cases hl : lookupAgent agents e with
        | none => exact ih _ _ i y (List.mem_cons_of_mem e hA)
        | some b =>
            have hbid : b.id = e := lookupAgent_id hl
            have hbA : ¬(a.id = b.id) := by
              intro hc
              apply h
              rw [← hbid, ← hc]
              exact hA
            by_cases hye : y = e
            · have hyc : y ∈ e :: checked := hye ▸ List.mem_cons_self e checked
              have hc := scanIds_checked_counts agents radii a es (e :: checked)
                (addEdges a.id b.id (pairDsq a b) radii cache) i y
                (List.mem_cons_of_mem _ hA) hyc
              refine ⟨?_, ?_⟩
              · rw [hc.1, pairCount_addEdges]
                split_ifs <;> omega
              · rw [hc.2, pairCount_addEdges]
                split_ifs <;> omega
            · have hby : ¬(b.id = y) := fun hc => hye (hc.symm.trans hbid)
              have e1 : pairCount (addEdges a.id b.id (pairDsq a b) radii cache) i a.id y =
                  pairCount cache i a.id y := by
                rw [pairCount_addEdges]
                have h1 : ¬(a.id = a.id ∧ b.id = y) := fun hc => hby hc.2
                have h2 : ¬(a.id = b.id ∧ a.id = y) := fun hc => hbA hc.1
                split_ifs <;> omega
              have e2 : pairCount (addEdges a.id b.id (pairDsq a b) radii cache) i y a.id =
                  pairCount cache i y a.id := by
                rw [pairCount_addEdges]
                have h1 : ¬(y = a.id ∧ b.id = a.id) := fun hc => hbA hc.2.symm
                have h2 : ¬(y = b.id ∧ a.id = a.id) := fun hc => hye (hc.1.trans hbid)
                split_ifs <;> omega
              have hrec := ih (e :: checked) (addEdges a.id b.id (pairDsq a b) radii cache)
                i y (List.mem_cons_of_mem e hA)
              rw [e1] at hrec
              rw [e2] at hrec
              exact hrec

theorem scanIds_sym (agents : List NAgent) (radii : List ℚ) (a : NAgent) :
    ∀ (es checked : List Nat) (cache : Cache), SymCache cache →
    SymCache (scanIds agents radii a es checked cache).2 := by
  intro es
  induction es with
  | nil => intro _ _ h; exact h
  | cons e es ih =>
      intro checked cache h
      simp only [scanIds]
      by_cases hm : e ∈ checked
      · rw [if_pos hm]
        exact ih checked cache h
      · rw [if_neg hm]
        cases hl : lookupAgent agents e with
        | none => exact ih _ _ h
        | some b => exact ih _ _ (SymCache_addEdges h a.id b.id (pairDsq a b) radii)

theorem scanIds_noself (agents : List NAgent) (radii : List ℚ) (a : NAgent) :
    ∀ (es checked : List Nat) (cache : Cache), a.id ∈ checked → NoSelfEdges cache →
    NoSelfEdges (scanIds agents radii a es checked cache).2 := by
  intro es
  induction es with
  | nil => intro _ _ _ h; exact h
  | cons e es ih =>
      intro checked cache hA h
      simp only [scanIds]
      by_cases hm : e ∈ checked
      · rw [if_pos hm]
        exact ih checked cache hA h
      · rw [if_neg hm]
        cases hl : lookupAgent agents e with
        | none => exact ih _ _ (List.mem_cons_of_mem e hA) h
        | some b =>
            have hbid : b.id = e := lookupAgent_id hl
            have hbA : a.id ≠ b.id := by
              intro hc
              apply hm
              rw [← hbid, ← hc]
              exact hA
            exact ih _ _ (List.mem_cons_of_mem e hA)
              (NoSelfEdges_addEdges h hbA (pairDsq a b) radii)

theorem scanIds_bound (agents : List NAgent) (radii : List ℚ) (a : NAgent) :
    ∀ (es checked : List Nat) (cache : Cache), BoundOK radii cache →
    BoundOK radii (scanIds agents radii a es checked cache).2 := by
  intro es
  induction es with
  | nil => intro _ _ h; exact h
  | cons e es ih =>
      intro checked cache h
      simp only [scanIds]
      by_cases hm : e ∈ checked
      · rw [if_pos hm]
        exact ih checked cache h
      · rw [if_neg hm]
        cases hl : lookupAgent agents e with
        | none => exact ih _ _ h
        | some b => exact ih _ _ (BoundOK_addEdges h (le_max_right _ _) a.id b.id)

theorem scanCells_checked_sub (agents : List NAgent) (radii : List ℚ) (a : NAgent)
    (table : HashTable) :
    ∀ (cells : List Cell) (checked : List Nat) (cache : Cache),
    checked ⊆ (scanCells agents radii a table cells checked cache).1 := by
  intro cells
  induction cells with
  | nil => intro _ _ x hx; exact hx
  | cons c cs ih =>
      intro checked cache
      simp only [scanCells]
      exact fun x hx => ih _ _ (scanIds_checked_sub agents radii a _ checked cache hx)

theorem scanCells_untouched (agents : List NAgent) (radii : List ℚ) (a : NAgent)
    (table : HashTable) :
    ∀ (cells : List Cell) (checked : List Nat) (cache : Cache) (i x y : Nat),
    x ≠ a.id → y ≠ a.id →
    pairCount (scanCells agents radii a table cells checked cache).2 i x y =
      pairCount cache i x y := by
  intro cells
  induction cells with
  | nil => intro _ _ _ _ _ _ _; rfl
  | cons c cs ih =>
      intro checked cache i x y hx hy
      simp only [scanCells]
      rw [ih _ _ i x y hx hy, scanIds_untouched agents radii a _ checked cache i x y hx hy]

theorem scanCells_checked_counts (agents : List NAgent) (radii : List ℚ) (a : NAgent)
    (table : HashTable) :
    ∀ (cells : List Cell) (checked : List Nat) (cache : Cache) (i y : Nat),
    a.id ∈ checked → y ∈ checked →
    pairCount (scanCells agents radii a table cells checked cache).2 i a.id y =
      pairCount cache i a.id y ∧
    pairCount (scanCells agents radii a table cells checked cache).2 i y a.id =
      pairCount cache i y a.id := by
  intro cells
  induction cells with
  | nil => intro _ _ _ _ _ _; exact ⟨rfl, rfl⟩
  | cons c cs ih =>
      intro checked cache i y hA hy
      simp only [scanCells]
      have hstep := scanIds_checked_counts agents radii a (bucketOf table c)
        checked cache i y hA hy
      have hrec := ih (scanIds agents radii a (bucketOf table c) checked cache).1
        (scanIds agents radii a (bucketOf table c) checked cache).2 i y
        (scanIds_checked_sub agents radii a _ checked cache hA)
        (scanIds_checked_sub agents radii a _ checked cache hy)
      exact ⟨hrec.1.trans hstep.1, hrec.2.trans hstep.2⟩

theorem scanCells_add_le (agents : List NAgent) (radii : List ℚ) (a : NAgent)
    (table : HashTable) :
    ∀ (cells : List Cell) (checked : List Nat) (cache : Cache) (i y : Nat),
    a.id ∈ checked →
    pairCount (scanCells agents radii a table cells checked cache).2 i a.id y ≤
      pairCount cache i a.id y + 1 ∧
    pairCount (scanCells agents radii a table cells checked cache).2 i y a.id ≤
      pairCount cache i y a.id + 1 := by
  intro cells
  induction cells with
  | nil => intro _ _ _ _ _; exact ⟨Nat.le_succ _, Nat.le_succ _⟩
  | cons c cs ih =>
      intro checked cache i y hA
      simp only [scanCells]
      by_cases hch :
          pairCount (scanIds agents radii a (bucketOf table c) checked cache).2 i a.id y =
            pairCount cache i a.id y ∧
          pairCount (scanIds agents radii a (bucketOf table c) checked cache).2 i y a.id =
            pairCount cache i y a.id
      · have hrec := ih (scanIds agents radii a (bucketOf table c) checked cache).1
          (scanIds agents radii a (bucketOf table c) checked cache).2 i y
          (scanIds_checked_sub agents radii a _ checked cache hA)
        rw [hch.1] at hrec
        rw [hch.2] at hrec
        exact hrec
      · have hor := not_and_or.mp hch
        have hy1 : y ∈ (scanIds agents radii a (bucketOf table c) checked cache).1 :=
          scanIds_changed_mem agents radii a _ checked cache i y hA hor
        have hrest := scanCells_checked_counts agents radii a table cs
          (scanIds agents radii a (bucketOf table c) checked cache).1
          (scanIds agents radii a (bucketOf table c) checked cache).2 i y
          (scanIds_checked_sub agents radii a _ checked cache hA) hy1
        have hstep := scanIds_add_le agents radii a (bucketOf table c) checked cache i y hA
        exact ⟨hrest.1.trans_le hstep.1, hrest.2.trans_le hstep.2⟩

theorem scanCells_sym (agents : List NAgent) (radii : List ℚ) (a : NAgent)
    (table : HashTable) :
    ∀ (cells : List Cell) (checked : List Nat) (cache : Cache), SymCache cache →
    SymCache (scanCells agents radii a table cells checked cache).2 := by
  intro cells
  induction cells with
  | nil => intro _ _ h; exact h
  | cons c cs ih =>
      intro checked cache h
      simp only [scanCells]
      exact ih _ _ (scanIds_sym agents radii a _ checked cache h)

theorem scanCells_noself (agents : List NAgent) (radii : List ℚ) (a : NAgent)
    (table : HashTable) :
    ∀ (cells : List Cell) (checked : List Nat) (cache : Cache),
    a.id ∈ checked → NoSelfEdges cache →
    NoSelfEdges (scanCells agents radii a table cells checked cache).2 := by
  intro cells
  induction cells with
  | nil => intro _ _ _ h; exact h
  | cons c cs ih =>
      intro checked cache hA h
      simp only [scanCells]
      exact ih _ _ (scanIds_checked_sub agents radii a _ checked cache hA)
        (scanIds_noself agents radii a _ checked cache hA h)

theorem scanCells_bound (agents : List NAgent) (radii : List ℚ) (a : NAgent)
    (table : HashTable) :
    ∀ (cells : List Cell) (checked : List Nat) (cache : Cache), BoundOK radii cache →
    BoundOK radii (scanCells agents radii a table cells checked cache).2 := by
  intro cells
  induction cells with
  | nil => intro _ _ h; exact h
  | cons c cs ih =>
      intro checked cache h
      simp only [scanCells]
      exact ih _ _ (scanIds_bound agents radii a _ checked cache h)

theorem SymCache_empty (radii : List ℚ) : SymCache (emptyCache radii) := by
  intro i a b d
  unfold entryCount
  rw [cacheEntries_empty, cacheEntries_empty]
  rfl

theorem NoSelfEdges_empty (radii : List ℚ) : NoSelfEdges (emptyCache radii) := by
  intro i a
  unfold pairCount
  rw [cacheEntries_empty]
  rfl

theorem BoundOK_empty (radii : List ℚ) : BoundOK radii (emptyCache radii) := by
  intro i r k e hr hmem
  rw [cacheEntries_empty] at hmem
  exact absurd hmem (List.not_mem_nil e)

theorem PairAtMostOne_empty (radii : List ℚ) : PairAtMostOne (emptyCache radii) := by
  intro i a b
  unfold pairCount
  rw [cacheEntries_empty, List.countP_nil]
  exact Nat.zero_le 1

theorem PairSupport_empty (radii : List ℚ) : PairSupport (emptyCache radii) [] := by
  intro i a b h1
  unfold pairCount at h1
  rw [cacheEntries_empty, List.countP_nil] at h1
  exact absurd h1 (by simp)

theorem buildLoop_noself (agents : List NAgent) (radii : List ℚ) (table : HashTable) :
    ∀ (rest : List NAgent) (checkedEnts : List Nat) (cache : Cache), NoSelfEdges cache →
    NoSelfEdges (buildLoop agents radii table rest checkedEnts cache) := by
  intro rest
  induction rest with
  | nil => intro _ _ h; exact h
  | cons a rest ih =>
      intro checkedEnts cache h
      simp only [buildLoop]
      cases haw : a.aware with
      | none => exact ih checkedEnts cache h
      | some aw =>
          exact ih _ _ (scanCells_noself agents radii a table _ _ _
            (List.mem_cons_self a.id checkedEnts) h)

theorem buildLoop_inv (agents : List NAgent) (radii : List ℚ) (table : HashTable) :
    ∀ (rest : List NAgent) (checkedEnts : List Nat) (cache : Cache),
    (rest.map NAgent.id).Nodup →
    (∀ x ∈ rest, x.id ∉ checkedEnts) →
    SymCache cache → NoSelfEdges cache → BoundOK radii cache →
    PairAtMostOne cache → PairSupport cache checkedEnts →
    SymCache (buildLoop agents radii table rest checkedEnts cache) ∧
    NoSelfEdges (buildLoop agents radii table rest checkedEnts cache) ∧
    BoundOK radii (buildLoop agents radii table rest checkedEnts cache) ∧
    PairAtMostOne (buildLoop agents radii table rest checkedEnts cache) := by
  intro rest
  induction rest with
  | nil => intro _ _ _ _ hs hn hb hp _; exact ⟨hs, hn, hb, hp⟩
  | cons a rest ih =>
      intro checkedEnts cache hnd hfresh hs hn hb hp hsup
      rw [List.map_cons, List.nodup_cons] at hnd
      have hanotin : a.id ∉ checkedEnts := hfresh a (List.mem_cons_self a rest)
      have hAmem : a.id ∈ a.id :: checkedEnts := List.mem_cons_self _ _
      simp only [buildLoop]
      cases haw : a.aware with
      | none =>
          exact ih checkedEnts cache hnd.2
            (fun x hx => hfresh x (List.mem_cons_of_mem a hx)) hs hn hb hp hsup
      | some aw =>
          refine ih (a.id :: checkedEnts)
            (scanCells agents radii a table
              (get_all_spatial_hashes_from_circle a.px a.py aw 36)
              (a.id :: checkedEnts) cache).2
            hnd.2 ?_ ?_ ?_ ?_ ?_ ?_
          · intro x hx hc
            rcases List.mem_cons.mp hc with hxa | hxc
            · exact hnd.1 (List.mem_map.mpr ⟨x, hx, hxa⟩)
            · exact hfresh x (List.mem_cons_of_mem a hx) hxc
          · exact scanCells_sym agents radii a table _ _ _ hs
          · exact scanCells_noself agents radii a table _ _ _ hAmem hn
          · exact scanCells_bound agents radii a table _ _ _ hb
          · intro i x y
            by_cases hx : x = a.id
            · by_cases hy : y = a.id
              · subst hx
                subst hy
                have h0 := (scanCells_noself agents radii a table
                  (get_all_spatial_hashes_from_circle a.px a.py aw 36)
                  (a.id :: checkedEnts) cache hAmem hn) i a.id
                omega
              · subst hx
                by_cases hyc : y ∈ a.id :: checkedEnts
                · have hc := scanCells_checked_counts agents radii a table
                    (get_all_spatial_hashes_from_circle a.px a.py aw 36)
                    (a.id :: checkedEnts) cache i y hAmem hyc
                  rw [hc.1]
                  exact hp i a.id y
                · have h0 : pairCount cache i a.id y = 0 := by
                    by_contra hne
                    rcases hsup i a.id y (Nat.one_le_iff_ne_zero.mpr hne) with hin | hin
                    · exact hanotin hin
                    · exact hyc (List.mem_cons_of_mem _ hin)
                  have hle := (scanCells_add_le agents radii a table
                    (get_all_spatial_hashes_from_circle a.px a.py aw 36)
                    (a.id :: checkedEnts) cache i y hAmem).1
                  omega
            · by_cases hy : y = a.id
              · subst hy
                by_cases hxc : x ∈ a.id :: checkedEnts
                · have hc := scanCells_checked_counts agents radii a table
                    (get_all_spatial_hashes_from_circle a.px a.py aw 36)
                    (a.id :: checkedEnts) cache i x hAmem hxc
                  rw [hc.2]
                  exact hp i x a.id
                · have h0 : pairCount cache i x a.id = 0 := by
                    by_contra hne
                    rcases hsup i x a.id (Nat.one_le_iff_ne_zero.mpr hne) with hin | hin
                    · exact hxc (List.mem_cons_of_mem _ hin)
                    · exact hanotin hin
                  have hle := (scanCells_add_le agents radii a table
                    (get_all_spatial_hashes_from_circle a.px a.py aw 36)
                    (a.id :: checkedEnts) cache i x hAmem).2
                  omega
              · rw [scanCells_untouched agents radii a table _ _ _ i x y hx hy]
                exact hp i x y
          · intro i x y h1
            by_cases hx : x = a.id
            · exact Or.inl (hx ▸ hAmem)
            · by_cases hy : y = a.id
              · exact Or.inr (hy ▸ hAmem)
              · rw [scanCells_untouched agents radii a table _ _ _ i x y hx hy] at h1
                rcases hsup i x y h1 with hin | hin
                · exact Or.inl (List.mem_cons_of_mem _ hin)
                · exact Or.inr (List.mem_cons_of_mem _ hin)

theorem cache_invariants (agents : List NAgent) (radii : List ℚ)
    (hnd : (agents.map NAgent.id).Nodup) :
    SymCache (build_spatial_neighbors_cache agents radii) ∧
    NoSelfEdges (build_spatial_neighbors_cache agents radii) ∧
    BoundOK radii (build_spatial_neighbors_cache agents radii) ∧
    PairAtMostOne (build_spatial_neighbors_cache agents radii) := by
  unfold build_spatial_neighbors_cache
  exact buildLoop_inv agents radii _ agents [] (emptyCache radii) hnd
    (fun x _ => List.not_mem_nil x.id) (SymCache_empty radii) (NoSelfEdges_empty radii)
    (BoundOK_empty radii) (PairAtMostOne_empty radii) (PairSupport_empty radii)

theorem build_noself (agents : List NAgent) (radii : List ℚ) :
    NoSelfEdges (build_spatial_neighbors_cache agents radii) := by
  unfold build_spatial_neighbors_cache
  exact buildLoop_noself agents radii _ agents [] (emptyCache radii)
    (NoSelfEdges_empty radii)

theorem neighbors_aux {cache : Cache} {ent x : Nat} {distance : ℚ} {l : List Nat}
    (i : Nat)
    (h : (match cache.get? i with
          | none => none
          | some tier =>
              match tierGet tier ent with
              | none => none
              | some l0 => some (l0.filterMap (fun e =>
                  if 0 ≤ distance ∧ e.2 ≤ distance * distance then some e.1 else none)))
        = some l)
    (hx : x ∈ l) : ∃ e, e ∈ cacheEntries cache i ent ∧ e.1 = x := by
  split at h
  · exact absurd h (by simp)
  · rename_i tier hc
    split at h
    · exact absurd h (by simp)
    · rename_i l0 htg
      have hl := Option.some.inj h
      rw [← hl] at hx
      obtain ⟨e, he, hfe⟩ := List.mem_filterMap.1 hx
      refine ⟨e, ?_, ?_⟩
      · have hentries : cacheEntries cache i ent = l0 := by
          unfold cacheEntries tierEntries
          rw [hc, Option.getD_some, htg, Option.getD_some]
        rw [hentries]
        exact he
      · by_cases hcond : 0 ≤ distance ∧ e.2 ≤ distance * distance
        · rw [if_pos hcond] at hfe
          exact Option.some.inj hfe
        · rw [if_neg hcond] at hfe
          simp at hfe

/-- Claim C4: in the cache built by `build_spatial_neighbors_cache` (over agents
with distinct entity ids), every tier-`i` entry `(b, d)` recorded under `a`
satisfies the tier's radius bound (`0 ≤ d ∧ d ≤ r²` on the stored squared
distance, i.e. the stored distance is at most `radii[i]`), is mirrored as
`(a, d)` under `b`, and the unordered pair contributes exactly one entry to
each endpoint's tier-`i` list. -/
theorem C4_neighbor_cache_symmetry (agents : List NAgent) (radii : List ℚ)
    (hnd : (agents.map NAgent.id).Nodup) (i a b : Nat) (d : ℚ)
    (hmem : (b, d) ∈ cacheEntries (build_spatial_neighbors_cache agents radii) i a) :
    (∃ r, radii.get? i = some r ∧ 0 ≤ d ∧ d ≤ r * r) ∧
    (a, d) ∈ cacheEntries (build_spatial_neighbors_cache agents radii) i b ∧
    pairCount (build_spatial_neighbors_cache agents radii) i a b = 1 ∧
    pairCount (build_spatial_neighbors_cache agents radii) i b a = 1 := by
  obtain ⟨hs, hn, hb, hp⟩ := cache_invariants agents radii hnd
  obtain ⟨r, hr⟩ : ∃ r, radii.get? i = some r := by
    cases h : (build_spatial_neighbors_cache agents radii).get? i with
    | none =>
        exfalso
        unfold cacheEntries at hmem
        rw [h] at hmem
        exact absurd hmem (List.not_mem_nil _)
    | some tier =>
        have hlt : i < (build_spatial_neighbors_cache agents radii).length := by
          by_contra hge
          rw [List.get?_eq_none.mpr (Nat.le_of_not_lt hge)] at h
          cases h
        rw [build_cache_length] at hlt
        exact ⟨radii.get ⟨i, hlt⟩, List.get?_eq_get hlt⟩
  have hbound := hb i r a (b, d) hr hmem
  have h1 : 0 < entryCount (build_spatial_neighbors_cache agents radii) i a b d := by
    unfold entryCount
    rw [List.countP_pos_iff]
    exact ⟨(b, d), hmem, by simp⟩
  have h2 : 0 < entryCount (build_spatial_neighbors_cache agents radii) i b a d := by
    rw [← hs i a b d]
    exact h1
  have hmem2 : (a, d) ∈ cacheEntries (build_spatial_neighbors_cache agents radii) i b := by
    unfold entryCount at h2
    rw [List.countP_pos_iff] at h2
    obtain ⟨e, he, hpe⟩ := h2
    have he2 : e = (a, d) := by simpa using hpe
    rw [← he2]
    exact he
  have hpab : 1 ≤ pairCount (build_spatial_neighbors_cache agents radii) i a b := by
    unfold pairCount
    rw [Nat.succ_le_iff, List.countP_pos_iff]
    exact ⟨(b, d), hmem, by simp⟩
  have hpba : 1 ≤ pairCount (build_spatial_neighbors_cache agents radii) i b a := by
    unfold pairCount
    rw [Nat.succ_le_iff, List.countP_pos_iff]
    exact ⟨(a, d), hmem2, by simp⟩
  exact ⟨⟨r, hr, hbound.1, hbound.2⟩, hmem2,
    le_antisymm (hp i a b) hpab, le_antisymm (hp i b a) hpba⟩

/-- Witness for `C4_neighbor_cache_symmetry`: the two-agent fixture with tiers
`[4, 16]`; the tier-0 entry `(2, 5)` under agent 1 is mirrored and unique. -/
theorem C4_neighbor_cache_symmetry_witness :
    (∃ r, ([(4 : ℚ), 16] : List ℚ).get? 0 = some r ∧ 0 ≤ (5 : ℚ) ∧ 5 ≤ r * r) ∧
    ((1 : Nat), (5 : ℚ)) ∈ cacheEntries (build_spatial_neighbors_cache agentsPair [4, 16]) 0 2 ∧
    pairCount (build_spatial_neighbors_cache agentsPair [4, 16]) 0 1 2 = 1 ∧
    pairCount (build_spatial_neighbors_cache agentsPair [4, 16]) 0 2 1 = 1 :=
  C4_neighbor_cache_symmetry agentsPair [4, 16] (by decide) 0 1 2 5
    (by with_unfolding_all decide)

/-- Claim C10 (implicit): an agent never appears in its own cached neighbor
lists — whenever `get_neighbors` on a built cache returns `some l` for an
agent, the agent's own id is not in `l` (the build marks each agent as checked
before scanning its buckets, so no self-edge is ever recorded). -/
theorem C10_no_self_neighbor (agents : List NAgent) (radii : List ℚ) (ent : Nat)
    (distance : ℚ) (l : List Nat)
    (h : get_neighbors radii (build_spatial_neighbors_cache agents radii) ent distance =
      some l) : ent ∉ l := by
  intro hmem
  obtain ⟨e, hce, he1⟩ := neighbors_aux
    (match radii.findIdx? (fun r => decide (distance ≤ r)) with
      | some i => i
      | none => radii.length - 1) h hmem
  have h1 : 0 < pairCount (build_spatial_neighbors_cache agents radii)
      (match radii.findIdx? (fun r => decide (distance ≤ r)) with
        | some i => i
        | none => radii.length - 1) ent ent := by
    unfold pairCount
    rw [List.countP_pos_iff]
    exact ⟨e, hce, by simp [he1]⟩
  rw [build_noself agents radii _ ent] at h1
  exact Nat.lt_irrefl 0 h1

/-- Witness for `C10_no_self_neighbor`: querying agent 1 of the two-agent
fixture returns `some [2]`, which does not contain 1. -/
theorem C10_no_self_neighbor_witness :
    get_neighbors [4, 16] (build_spatial_neighbors_cache agentsPair [4, 16]) 1 10 =
      some [2] ∧ (1 : Nat) ∉ ([2] : List Nat) :=
  ⟨by with_unfolding_all decide,
   C10_no_self_neighbor agentsPair [4, 16] 1 10 [2] (by with_unfolding_all decide)⟩
